import Mathlib

/-!
Verification of khm_light_api's schedule parser and hours calculator.

The development shallowly embeds the interval-reconciliation engine of
`app/logic/parser.py` and the duration calculator `calculate_hours` of
`main.py`.

Embedding conventions:
* A wall-clock time "HH:MM" is represented by its two numeric fields
  `(h, m) : Nat × Nat` (the digits matched by the source's regexes, so
  `h ≤ 99`, `m ≤ 99` in general).  `Parser._to_minutes` is `tmin`.
  Python compares normalized two-digit "HH:MM" *strings*
  lexicographically in `base.sort(key=lambda x: x["start"])` and in
  `min`/`max` on line 164-165 of parser.py; on two-digit zero-padded
  fields that string order is exactly the lexicographic order on the
  `(h, m)` pair, embedded here as `lexLt`/`lexLe`.
* Python's `sorted`/`list.sort` are stable; a stable sort is extensionally
  unique, so they are embedded by `List.insertionSort` (stable).
* Python dicts are embedded as association lists in insertion order.
-/

namespace KhmLight

/-- Numeric value of a time field pair: `Parser._to_minutes`
(`int(h) * 60 + int(m)`, parser.py line 196-199). -/
def tmin (t : Nat × Nat) : Nat := 60 * t.1 + t.2

/-- Lexicographic strict order on `(h, m)` pairs: Python `<` on the
corresponding zero-padded "HH:MM" strings. -/
def lexLt (a b : Nat × Nat) : Bool := a.1 < b.1 || (a.1 = b.1 && a.2 < b.2)

/-- Lexicographic order on `(h, m)` pairs: Python `<=` on the
corresponding zero-padded "HH:MM" strings. -/
def lexLe (a b : Nat × Nat) : Bool := a.1 < b.1 || (a.1 = b.1 && a.2 ≤ b.2)

/-- Python `min(x, y)` (returns the first argument on ties). -/
def pyMin (x y : Nat × Nat) : Nat × Nat := if lexLt y x then y else x

/-- Python `max(x, y)` (returns the first argument on ties). -/
def pyMax (x y : Nat × Nat) : Nat × Nat := if lexLt x y then y else x

/-- Kind tag of an intermediate interval (the `"type"` field of the
interval dicts built in parser.py). -/
inductive RKind where
  | base
  | change
  | changeStart
  | changeEnd
  | extra
deriving DecidableEq

/-- An intermediate interval dict `{"start": ..., "end": ..., "type": ...}`
as collected in the per-queue lists of `Parser.parse_block` /
`Parser._apply_changes`; `start`/`end` may be `None`. -/
structure RawIv where
  start : Option (Nat × Nat)
  stop : Option (Nat × Nat)
  kind : RKind
deriving DecidableEq

/-- A fully populated interval (both endpoints present), the shape of
every element of the `base` working list of `Parser._merge_intervals`
and of the final result (whose `"type"` is always `"base"`,
parser.py line 177, so the tag is left implicit). -/
structure Iv where
  start : Nat × Nat
  stop : Nat × Nat
deriving DecidableEq

/-- Embeds `Parser._overlaps` (parser.py lines 201-205):
`not (e1 <= s2 or e2 <= s1)` on minutes values. -/
def overlapsB (i1 i2 : Iv) : Bool :=
  !(tmin i1.stop ≤ tmin i2.start || tmin i2.stop ≤ tmin i1.start)

/-- Sort key of `base.sort(key=lambda x: x["start"])` (parser.py line 144):
comparison of the normalized start *strings*, i.e. lexicographic on the
`(h, m)` fields. -/
def leStr (a b : Iv) : Prop := lexLe a.start b.start

instance : DecidableRel leStr := fun a b => by unfold leStr; infer_instance

/-- Sort key of `sorted(intervals, key=lambda x: self._to_minutes(x["start"]))`
(parser.py line 212): minutes value of the start. -/
def leTm (a b : Iv) : Prop := tmin a.start ≤ tmin b.start

instance : DecidableRel leTm := fun a b => by unfold leTm; infer_instance

instance : IsTotal Iv leStr where
  total a b := by
    unfold leStr lexLe
    rcases Nat.lt_trichotomy a.start.1 b.start.1 with h | h | h
    · exact Or.inl (by simp [h])
    · rcases Nat.le_total a.start.2 b.start.2 with h2 | h2
      · exact Or.inl (by simp [h, h2])
      · exact Or.inr (by simp [h, h2])
    · exact Or.inr (by simp [h])

instance : IsTrans Iv leStr where
  trans a b c hab hbc := by
    unfold leStr lexLe at *
    simp only [Bool.or_eq_true, Bool.and_eq_true, decide_eq_true_eq] at *
    omega

instance : IsTotal Iv leTm where
  total a b := Nat.le_total (tmin a.start) (tmin b.start)

instance : IsTrans Iv leTm where
  trans _ _ _ hab hbc := Nat.le_trans hab hbc

/-- Embeds the `Parser._find_nearest` inner loop (parser.py lines 186-194): index of
the first element minimizing `abs(to_minutes(interval[field]) - time_mins)`.
The Python loop starts from `best = (0, inf)`, so the first element always
replaces the initial state; we start from `(0, d₀)` accordingly. -/
def findNearestAux (tm0 : Nat) (f : Iv → Nat × Nat) :
    List Iv → Nat → Nat → Nat → Nat
  | [], _, bi, _ => bi
  | x :: xs, i, bi, bd =>
    let d := Int.natAbs ((tmin (f x) : Int) - (tm0 : Int))
    if d < bd then findNearestAux tm0 f xs (i + 1) i d
    else findNearestAux tm0 f xs (i + 1) bi bd

/-- Embeds `Parser._find_nearest` (parser.py lines 181-194): `none` iff the list
is empty, otherwise the index of the nearest interval. -/
def findNearest (l : List Iv) (t : Nat × Nat) (f : Iv → Nat × Nat) :
    Option Nat :=
  match l with
  | [] => none
  | x :: xs =>
    some (findNearestAux (tmin t) f xs 1 0
      (Int.natAbs ((tmin (f x) : Int) - (tmin t : Int))))

/-- In-place field update `base[idx][field] = value` on a list (out-of-range
index is a no-op; the source only ever produces in-range indices). -/
def updateAt {α : Type} (l : List α) (i : Nat) (f : α → α) : List α :=
  match l, i with
  | [], _ => []
  | x :: xs, 0 => f x :: xs
  | x :: xs, Nat.succ j => x :: updateAt xs j f

/-- One iteration of the start/end-change loop of `Parser._merge_intervals`
(parser.py lines 147-157), acting on the current `base` list. -/
def applyChange (b : List Iv) (c : RawIv) : List Iv :=
  if b.isEmpty then b
  else
    match c.kind, c.start, c.stop with
    | RKind.changeStart, some s, _ =>
      match findNearest b s (fun iv => iv.start) with
      | some i => updateAt b i (fun iv => { iv with start := s })
      | none => b
    | RKind.changeEnd, _, some e =>
      match findNearest b e (fun iv => iv.stop) with
      | some i => updateAt b i (fun iv => { iv with stop := e })
      | none => b
    | _, _, _ => b

/-- The full-replacement loop body of `Parser._merge_intervals`
(parser.py lines 160-169): widen the first overlapping base interval to the
union (`min` of start strings, `max` of end strings) and stop scanning;
if none overlaps, append the full change at the end as a base interval. -/
def applyFull : List Iv → Iv → List Iv
  | [], fc => [fc]
  | b :: rest, fc =>
    if overlapsB b fc then
      { start := pyMin b.start fc.start, stop := pyMax b.stop fc.stop } :: rest
    else
      b :: applyFull rest fc

/-- The coalescing loop of `Parser._merge_overlapping`
(parser.py lines 215-221), with `last` the running merged interval. -/
def mergeRun (last : Iv) : List Iv → List Iv
  | [] => [last]
  | c :: rest =>
    if tmin c.start ≤ tmin last.stop then
      if tmin last.stop < tmin c.stop then mergeRun { last with stop := c.stop } rest
      else mergeRun last rest
    else
      last :: mergeRun c rest

/-- Embeds `Parser._merge_overlapping` (parser.py lines 207-223): sort ascending by
start minutes (stably), then coalesce. -/
def mergeOverlapping (l : List Iv) : List Iv :=
  match List.insertionSort leTm l with
  | [] => []
  | x :: xs => mergeRun x xs

/-- The per-queue body of `Parser._merge_intervals`
(parser.py lines 138-177). -/
def mergeQueue (intervals : List RawIv) : List Iv :=
  let base := intervals.filterMap (fun i =>
    match i.kind, i.start, i.stop with
    | RKind.base, some s, some e => some (Iv.mk s e)
    | _, _, _ => none)
  let changes := intervals.filter (fun i =>
    i.kind = RKind.changeStart ∨ i.kind = RKind.changeEnd)
  let fullChanges := intervals.filterMap (fun i =>
    match i.kind, i.start, i.stop with
    | RKind.change, some s, some e => some (Iv.mk s e)
    | _, _, _ => none)
  let extras := intervals.filterMap (fun i =>
    match i.kind, i.start, i.stop with
    | RKind.extra, some s, some e => some (Iv.mk s e)
    | _, _, _ => none)
  let b1 := List.insertionSort leStr base
  let b2 := changes.foldl applyChange b1
  let b3 := fullChanges.foldl applyFull b2
  mergeOverlapping (b3 ++ extras)

/-- Embeds `Parser._merge_intervals` (parser.py lines 129-179): per-queue merge;
queues whose merged list is empty are omitted from the result
(`if merged:` on line 176). -/
def mergeIntervals (queues : List (String × List RawIv)) :
    List (String × List Iv) :=
  queues.filterMap (fun p =>
    let m := mergeQueue p.2
    if m.isEmpty then none else some (p.1, m))

/-! ### Invariants of the coalescing pass (`_merge_overlapping`) -/

/-- Separation of two merged intervals: the running interval's end lies
strictly before the next one's start (on literal minute values). -/
def sepIv (a b : Iv) : Prop := tmin a.stop < tmin b.start

lemma mergeRun_head (xs : List Iv) :
    ∀ last : Iv, ∃ e ts, mergeRun last xs = Iv.mk last.start e :: ts := by
  induction xs with
  | nil => intro last; exact ⟨last.stop, [], rfl⟩
  | cons c rest ih =>
    intro last
    rw [mergeRun]
    by_cases h1 : tmin c.start ≤ tmin last.stop
    · rw [if_pos h1]
      by_cases h2 : tmin last.stop < tmin c.stop
      · rw [if_pos h2]; exact ih _
      · rw [if_neg h2]; exact ih last
    · rw [if_neg h1]; exact ⟨last.stop, mergeRun c rest, rfl⟩

lemma mergeRun_start_mem (xs : List Iv) :
    ∀ (last : Iv) (y : Iv), y ∈ mergeRun last xs →
      y.start = last.start ∨ ∃ x ∈ xs, y.start = x.start := by
  induction xs with
  | nil =>
    intro last y hy
    rw [mergeRun] at hy
    rcases List.mem_singleton.mp hy with rfl
    exact Or.inl rfl
  | cons c rest ih =>
    intro last y hy
    rw [mergeRun] at hy
    by_cases h1 : tmin c.start ≤ tmin last.stop
    · rw [if_pos h1] at hy
      by_cases h2 : tmin last.stop < tmin c.stop
      · rw [if_pos h2] at hy
        rcases ih _ y hy with h | ⟨x, hx, hxs⟩
        · exact Or.inl h
        · exact Or.inr ⟨x, List.mem_cons_of_mem _ hx, hxs⟩
      · rw [if_neg h2] at hy
        rcases ih last y hy with h | ⟨x, hx, hxs⟩
        · exact Or.inl h
        · exact Or.inr ⟨x, List.mem_cons_of_mem _ hx, hxs⟩
    · rw [if_neg h1] at hy
      rcases List.mem_cons.mp hy with rfl | hy2
      · exact Or.inl rfl
      · rcases ih c y hy2 with h | ⟨x, hx, hxs⟩
        · exact Or.inr ⟨c, List.mem_cons_self c rest, h⟩
        · exact Or.inr ⟨x, List.mem_cons_of_mem _ hx, hxs⟩

lemma mergeRun_pairwise_leTm (xs : List Iv) :
    ∀ last : Iv, List.Pairwise leTm (last :: xs) →
      List.Pairwise leTm (mergeRun last xs) := by
  induction xs with
  | nil => intro last _; exact List.pairwise_singleton _ _
  | cons c rest ih =>
    intro last hpw
    rw [List.pairwise_cons] at hpw
    obtain ⟨hpw1, hpw2⟩ := hpw
    rw [List.pairwise_cons] at hpw2
    obtain ⟨hcr, hr⟩ := hpw2
    rw [mergeRun]
    by_cases h1 : tmin c.start ≤ tmin last.stop
    · rw [if_pos h1]
      by_cases h2 : tmin last.stop < tmin c.stop
      · rw [if_pos h2]
        apply ih
        rw [List.pairwise_cons]
        exact ⟨fun y hy => hpw1 y (List.mem_cons_of_mem _ hy), hr⟩
      · rw [if_neg h2]
        apply ih
        rw [List.pairwise_cons]
        exact ⟨fun y hy => hpw1 y (List.mem_cons_of_mem _ hy), hr⟩
    · rw [if_neg h1]
      rw [List.pairwise_cons]
      constructor
      · intro y hy
        rcases mergeRun_start_mem rest c y hy with h | ⟨x, hx, hxs⟩
        · have := hpw1 c (List.mem_cons_self c rest)
          unfold leTm at *
          rw [h]; exact this
        · have := hpw1 x (List.mem_cons_of_mem _ hx)
          unfold leTm at *
          rw [hxs]; exact this
      · apply ih
        rw [List.pairwise_cons]
        exact ⟨hcr, hr⟩

lemma mergeRun_chain_sep (xs : List Iv) :
    ∀ last : Iv, List.Pairwise leTm (last :: xs) →
      List.Chain' sepIv (mergeRun last xs) := by
  induction xs with
  | nil => intro last _; simp [mergeRun]
  | cons c rest ih =>
    intro last hpw
    rw [List.pairwise_cons] at hpw
    obtain ⟨hpw1, hpw2⟩ := hpw
    rw [mergeRun]
    by_cases h1 : tmin c.start ≤ tmin last.stop
    · rw [if_pos h1]
      by_cases h2 : tmin last.stop < tmin c.stop
      · rw [if_pos h2]
        apply ih
        rw [List.pairwise_cons] at hpw2 ⊢
        exact ⟨fun y hy => hpw1 y (List.mem_cons_of_mem _ hy), hpw2.2⟩
      · rw [if_neg h2]
        apply ih
        rw [List.pairwise_cons] at hpw2 ⊢
        exact ⟨fun y hy => hpw1 y (List.mem_cons_of_mem _ hy), hpw2.2⟩
    · rw [if_neg h1]
      obtain ⟨e, ts, heq⟩ := mergeRun_head rest c
      rw [heq, List.chain'_cons]
      constructor
      · unfold sepIv
        simp only []
        omega
      · rw [← heq]
        exact ih c hpw2

lemma chain_sep_pairwise :
    ∀ l : List Iv, List.Chain' sepIv l → List.Pairwise leTm l →
      List.Pairwise sepIv l := by
  intro l
  induction l with
  | nil => intro _ _; exact List.Pairwise.nil
  | cons x l ih =>
    intro hc hp
    rw [List.chain'_cons'] at hc
    obtain ⟨hx, hc2⟩ := hc
    rw [List.pairwise_cons] at hp
    obtain ⟨hxl, hp2⟩ := hp
    rw [List.pairwise_cons]
    refine ⟨?_, ih hc2 hp2⟩
    intro y hy
    cases l with
    | nil => exact absurd hy (List.not_mem_nil y)
    | cons z l2 =>
      have hxz : sepIv x z := hx z rfl
      rcases List.mem_cons.mp hy with rfl | hy2
      · exact hxz
      · have hzy : leTm z y := (List.pairwise_cons.mp hp2).1 y hy2
        unfold sepIv leTm at *
        omega

lemma mergeOverlapping_pairwise_leTm (l : List Iv) :
    List.Pairwise leTm (mergeOverlapping l) := by
  unfold mergeOverlapping
  have hs : List.Pairwise leTm (List.insertionSort leTm l) :=
    List.sorted_insertionSort leTm l
  cases heq : List.insertionSort leTm l with
  | nil => exact List.Pairwise.nil
  | cons x xs => rw [heq] at hs; exact mergeRun_pairwise_leTm xs x hs

lemma mergeOverlapping_chain_sep (l : List Iv) :
    List.Chain' sepIv (mergeOverlapping l) := by
  unfold mergeOverlapping
  have hs : List.Pairwise leTm (List.insertionSort leTm l) :=
    List.sorted_insertionSort leTm l
  cases heq : List.insertionSort leTm l with
  | nil => exact List.chain'_nil
  | cons x xs => rw [heq] at hs; exact mergeRun_chain_sep xs x hs

lemma mergeOverlapping_pairwise_sep (l : List Iv) :
    List.Pairwise sepIv (mergeOverlapping l) :=
  chain_sep_pairwise _ (mergeOverlapping_chain_sep l) (mergeOverlapping_pairwise_leTm l)

lemma sep_not_overlaps {a b : Iv} (h : sepIv a b) :
    overlapsB a b = false ∧ overlapsB b a = false := by
  unfold sepIv at h
  unfold overlapsB
  constructor <;> simp <;> omega

lemma mergeQueue_is_merge (intervals : List RawIv) :
    ∃ l, mergeQueue intervals = mergeOverlapping l :=
  ⟨_, rfl⟩

lemma mem_mergeIntervals {qs : List (String × List RawIv)} {q : String}
    {l : List Iv} (h : (q, l) ∈ mergeIntervals qs) :
    ∃ p ∈ qs, l = mergeQueue p.2 := by
  unfold mergeIntervals at h
  rw [List.mem_filterMap] at h
  obtain ⟨p, hp, hf⟩ := h
  dsimp only [] at hf
  split at hf
  · exact absurd hf (by simp)
  · refine ⟨p, hp, ?_⟩
    have h2 := Option.some.inj hf
    exact (congrArg Prod.snd h2).symm

lemma mergeRun_self_mem (rest : List Iv) (x : Iv)
    (h : ∀ c ∈ rest, ¬ tmin c.start ≤ tmin x.stop) :
    x ∈ mergeRun x rest := by
  cases rest with
  | nil => rw [mergeRun]; exact List.mem_singleton_self x
  | cons c r =>
    rw [mergeRun, if_neg (h c (List.mem_cons_self c r))]
    exact List.mem_cons_self x _

lemma mergeRun_mem_overnight (rest : List Iv) :
    ∀ (last x : Iv), x ∈ rest → List.Pairwise leTm (last :: rest) →
      tmin x.stop < tmin x.start → tmin last.stop < tmin x.start →
      (∀ y ∈ rest, y = x ∨
        ¬(tmin y.start ≤ tmin x.start ∧ tmin x.start ≤ tmin y.stop)) →
      x ∈ mergeRun last rest := by
  induction rest with
  | nil => intro _ x hx; exact absurd hx (List.not_mem_nil x)
  | cons c r ih =>
    intro last x hx hpw hov hlast hsep
    rw [List.pairwise_cons] at hpw
    obtain ⟨hpw1, hpw2⟩ := hpw
    by_cases hcx : c = x
    · subst hcx
      rw [mergeRun, if_neg (by omega)]
      apply List.mem_cons_of_mem
      apply mergeRun_self_mem
      intro c2 hc2
      have : leTm c c2 := (List.pairwise_cons.mp hpw2).1 c2 hc2
      unfold leTm at this
      omega
    · have hxr : x ∈ r := by
        rcases List.mem_cons.mp hx with h | h
        · exact absurd h.symm hcx
        · exact h
      have hcstop : tmin c.stop < tmin x.start := by
        rcases hsep c (List.mem_cons_self c r) with h | h
        · exact absurd h hcx
        · have hcx2 : tmin c.start ≤ tmin x.start :=
            (List.pairwise_cons.mp hpw2).1 x hxr
          omega
      have hsepr : ∀ y ∈ r, y = x ∨
          ¬(tmin y.start ≤ tmin x.start ∧ tmin x.start ≤ tmin y.stop) :=
        fun y hy => hsep y (List.mem_cons_of_mem _ hy)
      rw [mergeRun]
      by_cases h1 : tmin c.start ≤ tmin last.stop
      · rw [if_pos h1]
        by_cases h2 : tmin last.stop < tmin c.stop
        · rw [if_pos h2]
          refine ih (Iv.mk last.start c.stop) x hxr ?_ hov hcstop hsepr
          rw [List.pairwise_cons]
          exact ⟨fun y hy => hpw1 y (List.mem_cons_of_mem _ hy),
            (List.pairwise_cons.mp hpw2).2⟩
        · rw [if_neg h2]
          refine ih last x hxr ?_ hov hlast hsepr
          rw [List.pairwise_cons]
          exact ⟨fun y hy => hpw1 y (List.mem_cons_of_mem _ hy),
            (List.pairwise_cons.mp hpw2).2⟩
      · rw [if_neg h1]
        exact List.mem_cons_of_mem _ (ih c x hxr hpw2 hov hcstop hsepr)

/-! ### Claim theorems: interval algebra -/

/-- C1.  For every input to the reconciliation step (hence for the
`queues` mapping of every `ParsedSchedule` returned by
`Parser.parse_block`, whose per-queue lists are exactly the output of
`Parser._merge_intervals`), every queue's final interval list is pairwise
non-overlapping under the half-open test `Parser._overlaps`, computed on
literal minutes-since-midnight values. -/
theorem claim_C1_nonoverlap :
    ∀ (qs : List (String × List RawIv)) (q : String) (l : List Iv),
      (q, l) ∈ mergeIntervals qs →
      List.Pairwise (fun a b => overlapsB a b = false ∧ overlapsB b a = false) l := by
  intro qs q l hmem
  obtain ⟨p, _, hl⟩ := mem_mergeIntervals hmem
  obtain ⟨l0, hl0⟩ := mergeQueue_is_merge p.2
  rw [hl, hl0]
  exact (mergeOverlapping_pairwise_sep l0).imp (fun h => sep_not_overlaps h)

theorem claim_C1_witness :
    List.Pairwise (fun a b => overlapsB a b = false ∧ overlapsB b a = false)
      [Iv.mk (10, 0) (15, 0)] :=
  claim_C1_nonoverlap [("1.1", [⟨some (10, 0), some (15, 0), RKind.base⟩])]
    "1.1" _ (by decide)

/-- C2 counterexample.  Two overnight base intervals with the same start
(e.g. extracted from a single line "підчерга 1.1 з 23:00 до 02:00,
з 23:00 до 02:10") survive merging side by side, so adjacent starts are
equal, not strictly ascending. -/
theorem claim_C2_counterexample :
    mergeIntervals [("1.1", [⟨some (23, 0), some (2, 0), RKind.base⟩,
        ⟨some (23, 0), some (2, 10), RKind.base⟩])]
      = [("1.1", [Iv.mk (23, 0) (2, 0), Iv.mk (23, 0) (2, 10)])]
    ∧ ¬ List.Chain' (fun a b => tmin a.start < tmin b.start)
        [Iv.mk (23, 0) (2, 0), Iv.mk (23, 0) (2, 10)] := by
  constructor
  · decide
  · intro h
    rw [List.chain'_cons] at h
    exact absurd h.1 (by decide)

/-- C2 amended.  Interval starts within a queue are ascending
(non-strictly); an adjacent pair can share a start only when the earlier
interval is overnight (its end before its start on literal minutes), and
whenever the earlier interval of an adjacent pair is not overnight, the
ascent is strict. -/
theorem claim_C2_order_amended :
    ∀ (qs : List (String × List RawIv)) (q : String) (l : List Iv),
      (q, l) ∈ mergeIntervals qs →
      List.Chain' (fun a b => tmin a.start ≤ tmin b.start ∧
        (tmin a.start ≤ tmin a.stop → tmin a.start < tmin b.start)) l := by
  intro qs q l hmem
  obtain ⟨p, _, hl⟩ := mem_mergeIntervals hmem
  obtain ⟨l0, hl0⟩ := mergeQueue_is_merge p.2
  rw [hl, hl0]
  have h1 := mergeOverlapping_pairwise_sep l0
  have h2 := mergeOverlapping_pairwise_leTm l0
  have h3 := h1.and h2
  refine (h3.imp ?_).chain'
  intro a b hab
  obtain ⟨hs, hle⟩ := hab
  unfold sepIv at hs
  unfold leTm at hle
  exact ⟨hle, fun h => by omega⟩

theorem claim_C2_witness :
    List.Chain' (fun a b => tmin a.start ≤ tmin b.start ∧
        (tmin a.start ≤ tmin a.stop → tmin a.start < tmin b.start))
      [Iv.mk (10, 0) (15, 0)] :=
  claim_C2_order_amended [("1.1", [⟨some (10, 0), some (15, 0), RKind.base⟩])]
    "1.1" _ (by decide)

/-- C4.  Behaviour of the full-replacement pass of
`Parser._merge_intervals`: (i) when no base interval overlaps the full
change, it is appended at the end as a new base interval; (ii) the first
overlapping base interval is widened to the union (`min` of starts,
`max` of ends) and scanning stops, leaving the rest untouched;
(iii) concretely, base 10:00–15:00 plus full replacement 11:00–16:00
yields exactly the single interval 10:00–16:00. -/
theorem claim_C4_full_replacement :
    (∀ (base : List Iv) (fc : Iv),
      (∀ b ∈ base, overlapsB b fc = false) → applyFull base fc = base ++ [fc])
    ∧ (∀ (pre post : List Iv) (b fc : Iv),
      (∀ y ∈ pre, overlapsB y fc = false) → overlapsB b fc = true →
      applyFull (pre ++ b :: post) fc =
        pre ++ Iv.mk (pyMin b.start fc.start) (pyMax b.stop fc.stop) :: post)
    ∧ mergeIntervals [("1.1", [⟨some (10, 0), some (15, 0), RKind.base⟩,
        ⟨some (11, 0), some (16, 0), RKind.change⟩])]
      = [("1.1", [Iv.mk (10, 0) (16, 0)])] := by
  refine ⟨?_, ?_, by decide⟩
  · intro base fc h
    induction base with
    | nil => rfl
    | cons b rest ih =>
      rw [applyFull, if_neg ?_]
      · rw [List.cons_append]
        exact congrArg _ (ih fun y hy => h y (List.mem_cons_of_mem _ hy))
      · rw [h b (List.mem_cons_self b rest)]
        exact Bool.false_ne_true
  · intro pre post b fc hpre hb
    induction pre with
    | nil => rw [List.nil_append, applyFull, if_pos hb]; rfl
    | cons y rest ih =>
      rw [List.cons_append, applyFull, if_neg ?_, List.cons_append]
      · exact congrArg _ (ih fun z hz => hpre z (List.mem_cons_of_mem _ hz))
      · rw [hpre y (List.mem_cons_self y rest)]
        exact Bool.false_ne_true

theorem claim_C4_witness :
    applyFull [Iv.mk (1, 0) (2, 0)] (Iv.mk (3, 0) (4, 0))
        = [Iv.mk (1, 0) (2, 0), Iv.mk (3, 0) (4, 0)]
    ∧ applyFull [Iv.mk (10, 0) (15, 0)] (Iv.mk (11, 0) (16, 0))
        = [Iv.mk (10, 0) (16, 0)] := by
  constructor
  · exact claim_C4_full_replacement.1 [Iv.mk (1, 0) (2, 0)]
      (Iv.mk (3, 0) (4, 0)) (by decide)
  · have h := claim_C4_full_replacement.2.1 [] []
      (Iv.mk (10, 0) (15, 0)) (Iv.mk (11, 0) (16, 0)) (by decide) (by decide)
    simpa using h

/-- C6 counterexample.  An overnight interval 23:00–02:00 whose start is
covered (on literal minutes) by a preceding interval 22:50–23:20 is
absorbed during coalescing and vanishes from the final merged sequence:
it does not survive `Parser._merge_intervals`. -/
theorem claim_C6_counterexample :
    mergeIntervals [("1.1", [⟨some (22, 50), some (23, 20), RKind.base⟩,
        ⟨some (23, 0), some (2, 0), RKind.base⟩])]
      = [("1.1", [Iv.mk (22, 50) (23, 20)])]
    ∧ tmin (2, 0) < tmin (23, 0)
    ∧ Iv.mk (23, 0) (2, 0) ∉ [Iv.mk (22, 50) (23, 20)] := by
  refine ⟨by decide, by decide, by decide⟩

/-- C6 amended.  Overnight intervals are not filtered or rejected by the
coalescing step: an overnight interval (end before start on literal
minutes) survives verbatim into the output of
`Parser._merge_overlapping` unless some other interval of the collection
covers its start (start ≤ its start ≤ that interval's end on literal
minutes), absorption by such an interval being the only way it can
disappear. -/
theorem claim_C6_overnight_amended :
    ∀ (l : List Iv) (x : Iv), x ∈ l → tmin x.stop < tmin x.start →
      (∀ y ∈ l, y = x ∨
        ¬(tmin y.start ≤ tmin x.start ∧ tmin x.start ≤ tmin y.stop)) →
      x ∈ mergeOverlapping l := by
  intro l x hx hov hsep
  unfold mergeOverlapping
  have hx2 : x ∈ List.insertionSort leTm l :=
    (List.mem_insertionSort leTm).mpr hx
  have hsorted : List.Pairwise leTm (List.insertionSort leTm l) :=
    List.sorted_insertionSort leTm l
  have hsep2 : ∀ y ∈ List.insertionSort leTm l, y = x ∨
      ¬(tmin y.start ≤ tmin x.start ∧ tmin x.start ≤ tmin y.stop) :=
    fun y hy => hsep y ((List.mem_insertionSort leTm).mp hy)
  cases heq : List.insertionSort leTm l with
  | nil => rw [heq] at hx2; exact absurd hx2 (List.not_mem_nil x)
  | cons y ys =>
    rw [heq] at hx2 hsorted hsep2
    by_cases hyx : y = x
    · subst hyx
      apply mergeRun_self_mem
      intro c hc
      have hyc : leTm y c := (List.pairwise_cons.mp hsorted).1 c hc
      unfold leTm at hyc
      omega
    · have hxys : x ∈ ys := by
        rcases List.mem_cons.mp hx2 with h | h
        · exact absurd h.symm hyx
        · exact h
      apply mergeRun_mem_overnight ys y x hxys hsorted hov ?_
        (fun z hz => hsep2 z (List.mem_cons_of_mem _ hz))
      rcases hsep2 y (List.mem_cons_self y ys) with h | h
      · exact absurd h hyx
      · have : leTm y x := (List.pairwise_cons.mp hsorted).1 x hxys
        unfold leTm at this
        omega

theorem claim_C6_witness :
    Iv.mk (23, 0) (2, 0) ∈ mergeOverlapping [Iv.mk (23, 0) (2, 0)] :=
  claim_C6_overnight_amended [Iv.mk (23, 0) (2, 0)] (Iv.mk (23, 0) (2, 0))
    (by decide) (by decide) (by decide)

lemma mergeRun_of_chain (xs : List Iv) :
    ∀ x : Iv, List.Chain' sepIv (x :: xs) → mergeRun x xs = x :: xs := by
  induction xs with
  | nil => intro x _; rfl
  | cons c rest ih =>
    intro x hc
    rw [List.chain'_cons] at hc
    obtain ⟨hxc, hc2⟩ := hc
    unfold sepIv at hxc
    rw [mergeRun, if_neg (by omega)]
    exact congrArg _ (ih c hc2)

/-- C9.  The coalescing step `Parser._merge_overlapping` is idempotent:
applied to its own output it returns that output unchanged. -/
theorem claim_C9_idempotent :
    ∀ l : List Iv, mergeOverlapping (mergeOverlapping l) = mergeOverlapping l := by
  intro l
  have key : ∀ m : List Iv, List.Sorted leTm m → List.Chain' sepIv m →
      mergeOverlapping m = m := by
    intro m h1 h2
    unfold mergeOverlapping
    rw [List.Sorted.insertionSort_eq h1]
    cases m with
    | nil => rfl
    | cons x xs => exact mergeRun_of_chain xs x h2
  exact key _ (mergeOverlapping_pairwise_leTm l) (mergeOverlapping_chain_sep l)

/-! ### The duration calculator `calculate_hours` (main.py lines 81-109)

`calculate_hours` parses each interval's endpoints with
`datetime.strptime(s, "%H:%M")`, skips the interval on parse failure,
sums the per-interval minute counts and returns
`round(total_minutes / 60, 1)`.

Python's `round(x, 1)` rounds the IEEE double `total / 60`; at every
value that is an exact multiple of one tenth (the case for all inputs
appearing in the claims) every tie-breaking convention coincides with
rounding the exact rational, which is how it is embedded here
(`Mathlib`'s `round` on `ℚ`). -/

/-- Python `s.split(c)` on a character list (empty pieces preserved). -/
def splitOnChar (c : Char) : List Char → List (List Char)
  | [] => [[]]
  | x :: xs =>
    if x = c then [] :: splitOnChar c xs
    else
      match splitOnChar c xs with
      | h :: t => (x :: h) :: t
      | [] => [[x]]

/-- Numeric value of a list of decimal digit characters. -/
def digitsVal (l : List Char) : Nat :=
  l.foldl (fun n c => n * 10 + (c.toNat - 48)) 0

/-- Embeds `datetime.strptime(s, "%H:%M")` as used by `calculate_hours`:
`%H` accepts one or two digits with value 0–23, `%M` one or two digits
with value 0–59, the separator is a literal `:` and the whole string
must be consumed (strptime raises on leftover data). -/
def parseHM (s : String) : Option (Nat × Nat) :=
  match splitOnChar ':' s.data with
  | [hd, md] =>
    if hd ≠ [] ∧ hd.length ≤ 2 ∧ hd.all Char.isDigit ∧
        md ≠ [] ∧ md.length ≤ 2 ∧ md.all Char.isDigit then
      let h := digitsVal hd
      let m := digitsVal md
      if h ≤ 23 ∧ m ≤ 59 then some (h, m) else none
    else none
  | _ => none

/-- Per-interval minute count (main.py lines 99-104).  The comparison
`end > start` on the parsed `datetime`s equals the comparison of the
minute values; the overnight branch computes
`24*60 - start.hour*60 - start.minute + end.hour*60 + end.minute`
in Python integer arithmetic, embedded over `Int`. -/
def intervalMinutes (st en : Nat × Nat) : Int :=
  if tmin st < tmin en then (tmin en : Int) - (tmin st : Int)
  else 24 * 60 - (st.1 : Int) * 60 - (st.2 : Int) + (en.1 : Int) * 60 + (en.2 : Int)

/-- The accumulation loop of `calculate_hours` (main.py lines 91-107):
each interval's endpoint strings (either of which may be absent, modelled
as `none`) are parsed; any failure skips just that interval. -/
def calcTotalMinutes (l : List (Option String × Option String)) : Int :=
  l.foldl (fun tot iv =>
    match iv.1, iv.2 with
    | some s, some e =>
      match parseHM s, parseHM e with
      | some st, some en => tot + intervalMinutes st en
      | _, _ => tot
    | _, _ => tot) 0

/-- Embeds `calculate_hours` (main.py lines 81-109): total minutes divided by 60,
rounded to one decimal place. -/
def calculate_hours (l : List (Option String × Option String)) : ℚ :=
  ((round ((calcTotalMinutes l : ℚ) * 10 / 60) : ℤ) : ℚ) / 10

/-- Modelled from the spec for comparison (spec §6): "treating an
interval where `end` time-of-day is earlier than `start` time-of-day as
crossing midnight"; an interval whose end is not strictly earlier gets
the plain forward duration.  This is the per-interval rule the claim
ascribes to the code. -/
def specIntervalMinutes (st en : Nat × Nat) : Int :=
  if tmin en < tmin st then 1440 - (tmin st : Int) + (tmin en : Int)
  else (tmin en : Int) - (tmin st : Int)

/-- Total minutes under the spec's per-interval rule. -/
def specCalcTotalMinutes (l : List (Option String × Option String)) : Int :=
  l.foldl (fun tot iv =>
    match iv.1, iv.2 with
    | some s, some e =>
      match parseHM s, parseHM e with
      | some st, some en => tot + specIntervalMinutes st en
      | _, _ => tot
    | _, _ => tot) 0

/-- Hours under the spec's per-interval rule. -/
def spec_calculate_hours (l : List (Option String × Option String)) : ℚ :=
  ((round ((specCalcTotalMinutes l : ℚ) * 10 / 60) : ℤ) : ℚ) / 10

/-- Amended per-interval rule: the crossing-midnight branch is taken when
the end is earlier than **or equal to** the start (the code's `else`
branch of `if end > start`). -/
def amendedIntervalMinutes (st en : Nat × Nat) : Int :=
  if tmin en ≤ tmin st then 1440 - (tmin st : Int) + (tmin en : Int)
  else (tmin en : Int) - (tmin st : Int)

/-- Total minutes under the amended per-interval rule. -/
def amendedCalcTotalMinutes (l : List (Option String × Option String)) : Int :=
  l.foldl (fun tot iv =>
    match iv.1, iv.2 with
    | some s, some e =>
      match parseHM s, parseHM e with
      | some st, some en => tot + amendedIntervalMinutes st en
      | _, _ => tot
    | _, _ => tot) 0

/-- Hours under the amended per-interval rule. -/
def amended_calculate_hours (l : List (Option String × Option String)) : ℚ :=
  ((round ((amendedCalcTotalMinutes l : ℚ) * 10 / 60) : ℤ) : ℚ) / 10

/-- C5 counterexample.  On the degenerate well-formed interval
10:00–10:00 the code's `else` branch (taken because `end > start` is
false) contributes 1440 minutes, so `calculate_hours` returns 24.0 while
the spec's rule (crossing midnight only when the end is strictly earlier
than the start) yields 0.0. -/
theorem claim_C5_counterexample :
    calculate_hours [(some "10:00", some "10:00")] = 24
    ∧ spec_calculate_hours [(some "10:00", some "10:00")] = 0 := by
  constructor
  · show ((round ((calcTotalMinutes [(some "10:00", some "10:00")] : ℚ) * 10 / 60) : ℤ) : ℚ) / 10 = 24
    norm_num [show calcTotalMinutes [(some "10:00", some "10:00")] = 1440 from by decide]
  · show ((round ((specCalcTotalMinutes [(some "10:00", some "10:00")] : ℚ) * 10 / 60) : ℤ) : ℚ) / 10 = 0
    norm_num [show specCalcTotalMinutes [(some "10:00", some "10:00")] = 0 from by decide]

/-- C5 amended.  `calculate_hours` equals the spec's sum-and-round rule
once the crossing-midnight branch is taken for `end ≤ start` (not just
`end < start`); in particular the overnight interval 23:00–02:00 yields
3.0 hours. -/
theorem claim_C5_hours_amended :
    (∀ l : List (Option String × Option String),
      calculate_hours l = amended_calculate_hours l)
    ∧ calculate_hours [(some "23:00", some "02:00")] = 3 := by
  constructor
  · intro l
    have hfun : intervalMinutes = amendedIntervalMinutes := by
      funext st en
      unfold intervalMinutes amendedIntervalMinutes
      rcases lt_or_ge (tmin st) (tmin en) with h | h
      · rw [if_pos h, if_neg (by omega)]
      · rw [if_neg (by omega), if_pos (by omega)]
        unfold tmin
        push_cast
        ring
    have key : calcTotalMinutes l = amendedCalcTotalMinutes l := by
      unfold calcTotalMinutes amendedCalcTotalMinutes
      rw [hfun]
    unfold calculate_hours amended_calculate_hours
    rw [key]
  · show ((round ((calcTotalMinutes [(some "23:00", some "02:00")] : ℚ) * 10 / 60) : ℤ) : ℚ) / 10 = 3
    norm_num [show calcTotalMinutes [(some "23:00", some "02:00")] = 180 from by decide]

/-- C10.  A degenerate interval whose two endpoints parse to the same
wall-clock time takes the crossing-midnight branch of `calculate_hours`
(`end > start` is false), contributing
`24*60 - start.hour*60 - start.minute + end.hour*60 + end.minute = 1440`
minutes, so a single such interval yields 24.0 hours rather than 0.0. -/
theorem claim_C10_degenerate :
    ∀ (s1 s2 : String) (t : Nat × Nat),
      parseHM s1 = some t → parseHM s2 = some t →
      intervalMinutes t t = 1440
      ∧ calculate_hours [(some s1, some s2)] = 24 := by
  intro s1 s2 t h1 h2
  have hint : intervalMinutes t t = 1440 := by
    unfold intervalMinutes
    rw [if_neg (lt_irrefl _)]
    ring
  refine ⟨hint, ?_⟩
  unfold calculate_hours
  have htot : calcTotalMinutes [(some s1, some s2)] = 1440 := by
    unfold calcTotalMinutes
    simp only [List.foldl_cons, List.foldl_nil, h1, h2, hint]
    norm_num
  rw [htot]
  norm_num

theorem claim_C10_witness :
    intervalMinutes (10, 0) (10, 0) = 1440
    ∧ calculate_hours [(some "10:00", some "10:00")] = 24 :=
  claim_C10_degenerate "10:00" "10:00" (10, 0) (by decide) (by decide)

/-! ### String-level embedding of `Parser.parse_block`

For the claims about the whole of `parse_block` (its `message` field, the
base-extraction behaviour and totality) the parser is embedded at the
string level, mirroring the source's data flow: interval endpoints are
carried as strings and converted by `_to_minutes` where the source does
so.  Every operation that can raise in Python (`_normalize_time` on a
string without a colon, `int()` on a non-digit string) is
`Option`-valued, `none` modelling the raise; silent skipping in the
source is an explicit `some` with unchanged state.

The regular expressions of parser.py are embedded as deterministic
character-list scanners that follow the regexes' matching behaviour
(greedy quantifiers with the one-step backtracks the patterns can
actually exercise; lazy `.+?` as an earliest-match scan that cannot
cross a newline; `re.search`/`re.findall`/`re.split` as leftmost,
non-overlapping position scans).  `re.IGNORECASE` is embedded by
folding Ukrainian capitals (and ASCII) to lowercase via `pyLower`;
Python's `\s` is embedded as `Char.isWhitespace` (the claims only
exercise spaces, tabs and newlines, where the two agree). -/

/-- Python `\s` (whitespace) approximation. -/
def isWs (c : Char) : Bool := c.isWhitespace

/-- Lowercasing for `re.IGNORECASE`: Ukrainian Cyrillic capitals
А–Я (U+0410–U+042F, +0x20), Є/І/Ї (+0x50), Ґ (+1), and ASCII. -/
def pyLower (c : Char) : Char :=
  if 'А' ≤ c ∧ c ≤ 'Я' then Char.ofNat (c.toNat + 32)
  else if c = 'Є' ∨ c = 'І' ∨ c = 'Ї' then Char.ofNat (c.toNat + 80)
  else if c = 'Ґ' then Char.ofNat (c.toNat + 1)
  else c.toLower

/-- Match a literal pattern case-insensitively (pattern given in
lowercase); returns the remaining input. -/
def ciMatch : List Char → List Char → Option (List Char)
  | [], l => some l
  | _ :: _, [] => none
  | p :: ps, c :: cs => if pyLower c = p then ciMatch ps cs else none

/-- Match a literal pattern case-sensitively; returns the remaining
input. -/
def litMatch : List Char → List Char → Option (List Char)
  | [], l => some l
  | _ :: _, [] => none
  | p :: ps, c :: cs => if c = p then litMatch ps cs else none

/-- Regex `\s*`: drop leading whitespace. -/
def wsStar (l : List Char) : List Char := l.dropWhile isWs

/-- Regex `\s+`: at least one whitespace character, greedy. -/
def wsPlus (l : List Char) : Option (List Char) :=
  match l with
  | c :: cs => if isWs c then some (cs.dropWhile isWs) else none
  | [] => none

/-- Python `str.strip()` (whitespace from both ends). -/
def trimWs (l : List Char) : List Char :=
  ((l.dropWhile isWs).reverse.dropWhile isWs).reverse

/-- Python `str.zfill(n)` on the digit strings appearing here (no sign
handling, which the zero-padded inputs never exercise). -/
def zfill (n : Nat) (l : List Char) : List Char :=
  List.replicate (n - l.length) '0' ++ l

/-- Python `int()` restricted to plain digit strings, `none` modelling
the `ValueError` raise (every string reaching it in the parser is a
regex `\d` group, so the tolerated sign/whitespace forms never occur). -/
def digitsValOpt (l : List Char) : Option Nat :=
  if l ≠ [] ∧ l.all Char.isDigit then some (digitsVal l) else none

/-- Embeds `Parser._normalize_time` (parser.py lines 62-65):
`parts = time_str.split(":")`, then zero-pad `parts[0]` and `parts[1]`
to two digits; `none` models the `IndexError` when there is no colon
(extra parts are ignored, as in the source). -/
def normalizeTime (s : String) : Option String :=
  match splitOnChar ':' s.data with
  | p0 :: p1 :: _ => some (String.mk (zfill 2 p0 ++ ':' :: zfill 2 p1))
  | _ => none

/-- Embeds `Parser._to_minutes` (parser.py lines 196-199):
`h, m = time_str.split(":")` (exactly two parts, else `ValueError`)
then `int(h) * 60 + int(m)`; `none` models the raise. -/
def toMin (s : String) : Option Nat :=
  match splitOnChar ':' s.data with
  | [h, m] =>
    match digitsValOpt h, digitsValOpt m with
    | some hn, some mn => some (hn * 60 + mn)
    | _, _ => none
  | _ => none

/-- Regex group `(\d{1,2}:\d{2})`: one or two digits (a longer digit run
fails both the greedy take and its backtrack), a colon, exactly two
digits.  Returns the hour and minute digit lists and the rest. -/
def matchTimeG (l : List Char) : Option ((List Char × List Char) × List Char) :=
  if (l.takeWhile Char.isDigit).length = 1
      ∨ (l.takeWhile Char.isDigit).length = 2 then
    match l.dropWhile Char.isDigit with
    | c :: m1 :: m2 :: r3 =>
      if c = ':' ∧ m1.isDigit ∧ m2.isDigit then
        some ((l.takeWhile Char.isDigit, [m1, m2]), r3)
      else none
    | _ => none
  else none

/-- The text of a matched time group, as handed to `_normalize_time`. -/
def timeStr (g : List Char × List Char) : String :=
  String.mk (g.1 ++ ':' :: g.2)

/-- Embeds one match of `Parser.TIME_PATTERN`
(`з\s*(\d{1,2}:\d{2})\s*до\s*(\d{1,2}:\d{2})`, case-sensitive). -/
def matchTimePair (l : List Char) : Option ((String × String) × List Char) := do
  let r1 ← litMatch "з".data l
  let (g1, r3) ← matchTimeG (wsStar r1)
  let r5 ← litMatch "до".data (wsStar r3)
  let (g2, r7) ← matchTimeG (wsStar r5)
  some ((timeStr g1, timeStr g2), r7)

/-- Embeds `re.findall`: leftmost, non-overlapping matches, advancing one
character on failure (every matcher used consumes at least one
character, and the fuel `length + 1` covers the whole scan). -/
def scanAll {α : Type} (m : List Char → Option (α × List Char)) :
    Nat → List Char → List α
  | 0, _ => []
  | fuel + 1, l =>
    match m l with
    | some (a, rest) => a :: scanAll m fuel rest
    | none =>
      match l with
      | [] => []
      | _ :: t => scanAll m fuel t

/-- Embeds `re.search`: the first position (left to right) where the
matcher succeeds. -/
def scanFirst {α : Type} (m : List Char → Option α) :
    Nat → List Char → Option α
  | 0, _ => none
  | fuel + 1, l =>
    match m l with
    | some a => some a
    | none =>
      match l with
      | [] => none
      | _ :: t => scanFirst m fuel t

/-- Embeds one match of `підчерга\s+(\d\.\d)` (re.IGNORECASE),
returning the queue-number group. -/
def matchQueueMarker (l : List Char) : Option String := do
  let r1 ← ciMatch "підчерга".data l
  let r2 ← wsPlus r1
  match r2 with
  | d1 :: '.' :: d2 :: _ =>
    if d1.isDigit ∧ d2.isDigit then some (String.mk [d1, '.', d2]) else none
  | _ => none

/-- Embeds `re.search(r'підчерга\s+(\d\.\d)', line, re.IGNORECASE)`
(parser.py line 41). -/
def searchQueueMarker (l : List Char) : Option String :=
  scanFirst matchQueueMarker (l.length + 1) l

/-- Embeds `Parser.TIME_PATTERN.findall(line)` (parser.py line 46). -/
def findAllTimePairs (l : List Char) : List (String × String) :=
  scanAll matchTimePair (l.length + 1) l

/-- String-level intermediate interval dict (endpoint strings as stored
by the source; `none` is Python `None`). -/
structure RawItvS where
  start : Option String
  stop : Option String
  kind : RKind
deriving DecidableEq

/-- Building one base interval dict (parser.py line 45): both matched
times normalized; `none` propagates a `_normalize_time` raise. -/
def mkBaseIv (p : String × String) : Option RawItvS := do
  let ns ← normalizeTime p.1
  let ne ← normalizeTime p.2
  some ⟨some ns, some ne, RKind.base⟩

/-- Python dict assignment `queues[queue] = intervals`: replace in place
if the key exists (dicts keep the original position), else append. -/
def setKey {α : Type} (l : List (String × α)) (k : String) (v : α) :
    List (String × α) :=
  match l with
  | [] => [(k, v)]
  | (k1, v1) :: t => if k1 = k then (k, v) :: t else (k1, v1) :: setKey t k v

/-- Python dict lookup on the association-list embedding. -/
def lookupKey {α : Type} (l : List (String × α)) (k : String) : Option α :=
  match l with
  | [] => none
  | (k1, v) :: t => if k1 = k then some v else lookupKey t k

/-- Per-line base extraction (parser.py lines 40-49): the first queue
marker found by `re.search` names the queue; all `TIME_PATTERN` matches
of the whole line become its intervals; a line with no marker or no
intervals contributes nothing (inner `none`). -/
def lineExtract (line : String) : Option (Option (String × List RawItvS)) :=
  match searchQueueMarker line.data with
  | none => some none
  | some q =>
    match (findAllTimePairs line.data).mapM mkBaseIv with
    | none => none
    | some ivs => if ivs.isEmpty then some none else some (some (q, ivs))

/-- One iteration of the base-extraction loop: assign the line's entry
(if any) with dict replacement semantics. -/
def extractStep (qs : List (String × List RawItvS)) (line : String) :
    Option (List (String × List RawItvS)) :=
  match lineExtract line with
  | none => none
  | some none => some qs
  | some (some p) => some (setKey qs p.1 p.2)

/-- The base-extraction loop over the lines of `schedule_text`. -/
def extractLines (ls : List String) : Option (List (String × List RawItvS)) :=
  ls.foldlM extractStep []

/-- Base extraction from `schedule_text` (parser.py lines 37-49);
`schedule_text.split("\n")` splits on the newline character, empty
pieces preserved. -/
def extractBase (text : String) : Option (List (String × List RawItvS)) :=
  extractLines ((splitOnChar '\n' text.data).map String.mk)

/-! ### Embedding of `Parser._apply_changes` (parser.py lines 67-127) -/

/-- Dash normalization (parser.py line 69):
`extras_text.replace("–", "-").replace("—", "-")`. -/
def dashNorm (l : List Char) : List Char :=
  l.map (fun c => if c = '–' ∨ c = '—' then '-' else c)

/-- The lookahead `(?=у\s+підчерг|підчерг[иуа])` of the entry-splitting
pattern (case-sensitive, as `re.split` is given no flags). -/
def lookaheadOk (l : List Char) : Bool :=
  (match (do
      let r1 ← litMatch "у".data l
      let r2 ← wsPlus r1
      litMatch "підчерг".data r2) with
    | some _ => true
    | none => false)
  || (match litMatch "підчерг".data l with
    | some r1 =>
      match r1 with
      | c :: _ => c = 'и' ∨ c = 'у' ∨ c = 'а'
      | [] => false
    | none => false)

/-- One match of the entry delimiter `[;.,:]?\s*-\s*(?=...)`: optional
punctuation (greedy, with the regex's fallback to not consuming it),
whitespace, a dash, whitespace, and the uncomsumed lookahead.  Returns
the rest after the delimiter. -/
def matchSplitDelim (l : List Char) : Option (List Char) :=
  let attempt := fun (l2 : List Char) =>
    match wsStar l2 with
    | '-' :: r2 =>
      let r3 := wsStar r2
      if lookaheadOk r3 then some r3 else none
    | _ => none
  match l with
  | c :: cs =>
    if c = ';' ∨ c = '.' ∨ c = ',' ∨ c = ':' then
      match attempt cs with
      | some r => some r
      | none => attempt l
    else attempt l
  | [] => none

/-- The scan of `re.split`: cut at each leftmost non-overlapping
delimiter match (each match consumes at least the dash, so the fuel
`length + 1` covers the scan). -/
def splitEntriesAux : Nat → List Char → List Char → List (List Char)
  | 0, accRev, l => [accRev.reverse ++ l]
  | _ + 1, accRev, [] => [accRev.reverse]
  | fuel + 1, accRev, c :: cs =>
    match matchSplitDelim (c :: cs) with
    | some rest => accRev.reverse :: splitEntriesAux fuel [] rest
    | none => splitEntriesAux fuel (c :: accRev) cs

/-- Embeds `re.split(r'[;.,:]?\s*-\s*(?=у\s+підчерг|підчерг[иуа])', text)`
(parser.py line 72). -/
def splitEntries (l : List Char) : List (List Char) :=
  splitEntriesAux (l.length + 1) [] l

/-- The character class `[\d\.\s,]` of the queue-number phrase. -/
def isQcls (c : Char) : Bool := c.isDigit || c = '.' || isWs c || c = ','

/-- One match of `підчерг[иуа]?\s+([\d\.\s,]+)` (re.IGNORECASE):
the optional letter is taken greedily; `\s+` is greedy but backtracks
one step to feed the group when nothing after the whitespace is in the
class (the group then captures a single whitespace character, as the
regex engine does).  Returns the group and the rest. -/
def matchQueuePhrase (l : List Char) : Option (List Char × List Char) :=
  match ciMatch "підчерг".data l with
  | none => none
  | some r1 =>
    let r2 := match r1 with
      | c :: cs => if pyLower c = 'и' ∨ pyLower c = 'у' ∨ pyLower c = 'а' then cs else r1
      | [] => r1
    let w := (r2.takeWhile isWs).length
    if w = 0 then none
    else
      let afterWs := r2.drop w
      let cls := afterWs.takeWhile isQcls
      if cls ≠ [] then some (cls, afterWs.drop cls.length)
      else if 2 ≤ w then some ((r2.drop (w - 1)).take 1, afterWs)
      else none

/-- One match of `(\d\.\d)` inside a queue-number group. -/
def matchQNum (l : List Char) : Option (String × List Char) :=
  match l with
  | d1 :: '.' :: d2 :: rest =>
    if d1.isDigit ∧ d2.isDigit then some (String.mk [d1, '.', d2], rest) else none
  | _ => none

/-- Embeds `re.findall(r'(\d\.\d)', qm)` (parser.py line 84). -/
def findQNums (l : List Char) : List String :=
  scanAll matchQNum (l.length + 1) l

/-- Lazy `.+?` (no DOTALL, so it cannot consume a newline): consume at
least one character, then the earliest position where the tail matches. -/
def lazyDot {α : Type} (tail : List Char → Option α) :
    Nat → List Char → Option α
  | _, [] => none
  | 0, _ => none
  | fuel + 1, c :: cs =>
    if c = '\n' then none
    else
      match tail cs with
      | some a => some a
      | none => lazyDot tail fuel cs

/-- The optional dash of `\\s*-?\\s*` (greedy; when the dash is present
nothing else can match it, so consuming it is the only branch). -/
def dashSkip (l : List Char) : List Char :=
  match l with
  | '-' :: cs => cs
  | r => r

/-- The optional `[б]?` (re.IGNORECASE, greedy; the patterns continue
with `\\s*\\d`, which `б` can never satisfy, so no backtrack arises). -/
def optB (l : List Char) : List Char :=
  match l with
  | c :: cs => if pyLower c = 'б' then cs else l
  | [] => l

/-- First alternative of pattern 3's `(?:до|заживлення.+?о[б]?)\\s*TIME`. -/
def altP3do (r6 : List Char) : Option String := do
  let ra ← ciMatch "до".data r6
  let (g, _) ← matchTimeG (wsStar ra)
  some (timeStr g)

/-- Tail of change pattern 1 after the lazy gap:
`триватиме\s+до\s*(\d{1,2}:\d{2})`. -/
def tailP1 (l : List Char) : Option (List Char × List Char) := do
  let r1 ← ciMatch "триватиме".data l
  let r2 ← wsPlus r1
  let r3 ← ciMatch "до".data r2
  let (g2, _) ← matchTimeG (wsStar r3)
  some g2

/-- One match of change pattern 1 (parser.py lines 90-93):
`раніше\s*-?\s*о[б]?\s*(\d{1,2}:\d{2}).+?триватиме\s+до\s*(\d{1,2}:\d{2})`
(re.IGNORECASE). -/
def matchP1 (l : List Char) : Option (String × String) := do
  let r1 ← ciMatch "раніше".data l
  let r5 ← ciMatch "о".data (wsStar (dashSkip (wsStar r1)))
  let (g1, r8) ← matchTimeG (wsStar (optB r5))
  let g2 ← lazyDot tailP1 r8.length r8
  some (timeStr g1, timeStr g2)

/-- One match of change pattern 2 (parser.py line 103):
`розпочнеться\s+раніше\s*-?\s*о[б]?\s*(\d{1,2}:\d{2})` (re.IGNORECASE). -/
def matchP2 (l : List Char) : Option String := do
  let r1 ← ciMatch "розпочнеться".data l
  let r2 ← wsPlus r1
  let r3 ← ciMatch "раніше".data r2
  let r7 ← ciMatch "о".data (wsStar (dashSkip (wsStar r3)))
  let (g, _) ← matchTimeG (wsStar (optB r7))
  some (timeStr g)

/-- After the `о` of pattern 3's second alternative: optional `б`
(greedy, with the backtrack the regex allows), then `\s*` and the time
group. -/
def afterO (r : List Char) : Option ((List Char × List Char) × List Char) :=
  match r with
  | c :: cs =>
    if pyLower c = 'б' then
      match matchTimeG (wsStar cs) with
      | some (g, rest) => some (g, rest)
      | none => matchTimeG (wsStar r)
    else matchTimeG (wsStar r)
  | [] => matchTimeG (wsStar r)

/-- Tail of pattern 3's `заживлення.+?о[б]?` alternative. -/
def tailP3 (l : List Char) : Option ((List Char × List Char) × List Char) := do
  let r ← ciMatch "о".data l
  afterO r

/-- One match of change pattern 3 (parser.py line 113):
`триватиме\s+довше\s*-?\s*(?:до|заживлення.+?о[б]?)\s*(\d{1,2}:\d{2})`
(re.IGNORECASE); the first alternative is tried first. -/
def matchP3 (l : List Char) : Option String := do
  let r1 ← ciMatch "триватиме".data l
  let r2 ← wsPlus r1
  let r3 ← ciMatch "довше".data r2
  match altP3do (wsStar (dashSkip (wsStar r3))) with
  | some g => some g
  | none => do
    let rb ← ciMatch "заживлення".data (wsStar (dashSkip (wsStar r3)))
    let (g, _) ← lazyDot tailP3 rb.length rb
    some (timeStr g)

/-- Tail of change pattern 4 after the lazy gap:
`з\s*(\d{1,2}:\d{2})\s*до\s*(\d{1,2}:\d{2})`. -/
def tailP4 (l : List Char) : Option (String × String) := do
  let r1 ← ciMatch "з".data l
  let (g1, r2) ← matchTimeG (wsStar r1)
  let r3 ← ciMatch "до".data (wsStar r2)
  let (g2, _) ← matchTimeG (wsStar r3)
  some (timeStr g1, timeStr g2)

/-- One match of change pattern 4 (parser.py line 123):
`додатково.+?з\s*(\d{1,2}:\d{2})\s*до\s*(\d{1,2}:\d{2})` (re.IGNORECASE). -/
def matchP4 (l : List Char) : Option (String × String) := do
  let r1 ← ciMatch "додатково".data l
  lazyDot tailP4 r1.length r1

/-- Python `queues.setdefault(q, []).append(item)`: append to the entry
in place, or add a new key at the end. -/
def pushItem (qs : List (String × List RawItvS)) (q : String)
    (item : RawItvS) : List (String × List RawItvS) :=
  match qs with
  | [] => [(q, [item])]
  | (k, v) :: t =>
    if k = q then (k, v ++ [item]) :: t else (k, v) :: pushItem t q item

/-- One iteration of the entry loop of `Parser._apply_changes`
(parser.py lines 75-127), on the state (queues, processed-set).  The
four patterns are tried in priority order with `re.search`; matched
times are normalized once per entry and pushed for each named queue
subject to the dedup keys; `none` propagates a `_normalize_time`
raise. -/
def entryQueueNums (entry : List Char) : List String :=
  (scanAll matchQueuePhrase (entry.length + 1) entry).foldr
    (fun g acc => findQNums g ++ acc) []

/-- The pattern dispatch of one entry (parser.py lines 89-127), after the
queue numbers have been extracted: the four patterns are tried in
priority order with `re.search`; matched times are normalized once per
entry and pushed for each named queue subject to the dedup keys;
`none` propagates a `_normalize_time` raise. -/
def applyEntryCore (st : List (String × List RawItvS) × List String)
    (entry : List Char) (queueNums : List String) :
    Option (List (String × List RawItvS) × List String) :=
  match scanFirst matchP1 (entry.length + 1) entry with
  | some (t1, t2) => do
    let ns ← normalizeTime t1
    let ne ← normalizeTime t2
    some (queueNums.foldl (fun acc q =>
      if (q ++ "_full") ∈ acc.2 then acc
      else (pushItem acc.1 q ⟨some ns, some ne, RKind.change⟩,
        acc.2 ++ [q ++ "_full"])) st)
  | none =>
  match scanFirst matchP2 (entry.length + 1) entry with
  | some t => do
    let ns ← normalizeTime t
    some (queueNums.foldl (fun acc q =>
      if (q ++ "_start") ∈ acc.2 ∨ (q ++ "_full") ∈ acc.2 then acc
      else (pushItem acc.1 q ⟨some ns, none, RKind.changeStart⟩,
        acc.2 ++ [q ++ "_start"])) st)
  | none =>
  match scanFirst matchP3 (entry.length + 1) entry with
  | some t => do
    let ne ← normalizeTime t
    some (queueNums.foldl (fun acc q =>
      if (q ++ "_end") ∈ acc.2 then acc
      else (pushItem acc.1 q ⟨none, some ne, RKind.changeEnd⟩,
        acc.2 ++ [q ++ "_end"])) st)
  | none =>
  match scanFirst matchP4 (entry.length + 1) entry with
  | some (t1, t2) => do
    let ns ← normalizeTime t1
    let ne ← normalizeTime t2
    some (queueNums.foldl (fun acc q =>
      (pushItem acc.1 q ⟨some ns, some ne, RKind.extra⟩, acc.2)) st)
  | none => some st

/-- One iteration of the entry loop of `Parser._apply_changes`
(parser.py lines 75-127), on the state (queues, processed-set): strip
the entry, extract the queue numbers
(`re.findall(r'підчерг[иуа]?\\s+([\\d\\.\\s,]+)')` then
`(\\d\\.\\d)` over each group), skip if none, else dispatch on the
four patterns. -/
def applyEntry (st : List (String × List RawItvS) × List String)
    (entry0 : List Char) :
    Option (List (String × List RawItvS) × List String) :=
  let entry := trimWs entry0
  if entry.isEmpty then some st
  else
    if (entryQueueNums entry).isEmpty then some st
    else applyEntryCore st entry (entryQueueNums entry)

/-- Embeds `Parser._apply_changes` (parser.py lines 67-127): normalize
dashes, split into entries, process each entry in order against the
shared queues mapping and dedup set. -/
def applyChanges (extras : String) (qs : List (String × List RawItvS)) :
    Option (List (String × List RawItvS)) :=
  ((splitEntries (dashNorm extras.data)).foldlM applyEntry (qs, [])).map
    (fun st => st.1)

/-! ### String-level embedding of `Parser._merge_intervals`

The source keeps endpoint strings and converts with `_to_minutes` at
each comparison; a malformed string raises there, so every comparison
in this layer is `Option`-valued (`none` = raise). -/

/-- A fully populated string-level interval (the shape of the `base`
working list; the `"type"` tag, always `"base"` from line 169/172/177
onward, is left implicit). -/
structure IvS where
  start : String
  stop : String
deriving DecidableEq

/-- The base filter (parser.py line 139): kind `base` and both endpoint
strings truthy (present and non-empty). -/
def baseFilter (l : List RawItvS) : List IvS :=
  l.filterMap (fun i =>
    match i.kind, i.start, i.stop with
    | RKind.base, some s, some e =>
      if s ≠ "" ∧ e ≠ "" then some ⟨s, e⟩ else none
    | _, _, _ => none)

/-- The full-change filter (parser.py line 141). -/
def fullFilter (l : List RawItvS) : List IvS :=
  l.filterMap (fun i =>
    match i.kind, i.start, i.stop with
    | RKind.change, some s, some e =>
      if s ≠ "" ∧ e ≠ "" then some ⟨s, e⟩ else none
    | _, _, _ => none)

/-- The extra filter (parser.py line 142). -/
def extraFilter (l : List RawItvS) : List IvS :=
  l.filterMap (fun i =>
    match i.kind, i.start, i.stop with
    | RKind.extra, some s, some e =>
      if s ≠ "" ∧ e ≠ "" then some ⟨s, e⟩ else none
    | _, _, _ => none)

/-- String-level `_find_nearest` loop (cf. `findNearestAux`); `none`
propagates a `_to_minutes` raise. -/
def findNearestAuxS (tm0 : Nat) (f : IvS → String) :
    List IvS → Nat → Nat → Nat → Option Nat
  | [], _, bi, _ => some bi
  | x :: xs, i, bi, bd => do
    let dx ← toMin (f x)
    let d := Int.natAbs ((dx : Int) - (tm0 : Int))
    if d < bd then findNearestAuxS tm0 f xs (i + 1) i d
    else findNearestAuxS tm0 f xs (i + 1) bi bd

/-- String-level `Parser._find_nearest` (parser.py lines 181-194);
the outer `Option` is the raise channel, the inner the `None` return. -/
def findNearestS (l : List IvS) (t : String) (f : IvS → String) :
    Option (Option Nat) :=
  match l with
  | [] => some none
  | x :: xs => do
    let tm0 ← toMin t
    let d0 ← toMin (f x)
    let idx ← findNearestAuxS tm0 f xs 1 0
      (Int.natAbs ((d0 : Int) - (tm0 : Int)))
    some (some idx)

/-- The `change_start` body (parser.py lines 150-153): find the base
interval with the nearest start and overwrite its start. -/
def applyStartS (b : List IvS) (s : String) : Option (List IvS) :=
  if s ≠ "" then do
    match ← findNearestS b s (fun iv => iv.start) with
    | some i => some (updateAt b i (fun iv => { iv with start := s }))
    | none => some b
  else some b

/-- The `change_end` body (parser.py lines 154-157). -/
def applyEndS (b : List IvS) (e : String) : Option (List IvS) :=
  if e ≠ "" then do
    match ← findNearestS b e (fun iv => iv.stop) with
    | some i => some (updateAt b i (fun iv => { iv with stop := e }))
    | none => some b
  else some b

/-- String-level iteration of the start/end-change loop
(parser.py lines 147-157). -/
def applyChangeS (b : List IvS) (c : RawItvS) : Option (List IvS) :=
  if b.isEmpty then some b
  else
    match c.kind, c.start, c.stop with
    | RKind.changeStart, some s, _ => applyStartS b s
    | RKind.changeEnd, _, some e => applyEndS b e
    | _, _, _ => some b

/-- String-level `Parser._overlaps` (parser.py lines 201-205). -/
def overlapsS (i1 i2 : IvS) : Option Bool := do
  let s1 ← toMin i1.start
  let e1 ← toMin i1.stop
  let s2 ← toMin i2.start
  let e2 ← toMin i2.stop
  some (!(e1 ≤ s2 || e2 ≤ s1))

/-- Python `min` on strings (first argument on ties). -/
def pyMinS (x y : String) : String := if y < x then y else x

/-- Python `max` on strings (first argument on ties). -/
def pyMaxS (x y : String) : String := if x < y then y else x

/-- String-level full-replacement pass (parser.py lines 160-169). -/
def applyFullS : List IvS → IvS → Option (List IvS)
  | [], fc => some [⟨fc.start, fc.stop⟩]
  | b :: rest, fc => do
    if ← overlapsS b fc then
      some (⟨pyMinS b.start fc.start, pyMaxS b.stop fc.stop⟩ :: rest)
    else
      (applyFullS rest fc).map (b :: ·)

/-- String-level coalescing loop (parser.py lines 215-221). -/
def mergeRunS (last : IvS) : List IvS → Option (List IvS)
  | [] => some [last]
  | c :: rest => do
    let cs ← toMin c.start
    let le ← toMin last.stop
    if cs ≤ le then do
      let ce ← toMin c.stop
      if le < ce then mergeRunS ⟨last.start, c.stop⟩ rest
      else mergeRunS last rest
    else
      (mergeRunS c rest).map (last :: ·)

/-- String-level `Parser._merge_overlapping` (parser.py lines 207-223):
the sort key `_to_minutes` is computed per element (raising on a
malformed string), then the stable sort runs on the keys. -/
def mergeOverlappingS (l : List IvS) : Option (List IvS) :=
  match l with
  | [] => some []
  | _ => do
    let keyed ← l.mapM (fun iv => do
      let k ← toMin iv.start
      some (k, iv))
    match (List.insertionSort (fun a b : Nat × IvS => a.1 ≤ b.1) keyed).map
        (fun p => p.2) with
    | [] => some []
    | x :: xs => mergeRunS x xs

/-- String-level per-queue body of `Parser._merge_intervals`
(parser.py lines 138-177). -/
def mergeQueueS (intervals : List RawItvS) : Option (List IvS) := do
  let changes := intervals.filter (fun i =>
    i.kind = RKind.changeStart ∨ i.kind = RKind.changeEnd)
  let b1 := List.insertionSort (fun a b : IvS => a.start ≤ b.start)
    (baseFilter intervals)
  let b2 ← changes.foldlM applyChangeS b1
  let b3 ← (fullFilter intervals).foldlM applyFullS b2
  mergeOverlappingS (b3 ++ (extraFilter intervals).map
    (fun e => (⟨e.start, e.stop⟩ : IvS)))

/-- One queue of the `_merge_intervals` loop: merge, then record the
queue unless the merged list is empty (`if merged:` on line 176). -/
def mergeStepS (acc : List (String × List IvS)) (p : String × List RawItvS) :
    Option (List (String × List IvS)) := do
  let m ← mergeQueueS p.2
  if m.isEmpty then some acc else some (acc ++ [(p.1, m)])

/-- String-level `Parser._merge_intervals` (parser.py lines 129-179). -/
def mergeIntervalsS (qs : List (String × List RawItvS)) :
    Option (List (String × List IvS)) :=
  qs.foldlM mergeStepS []

/-- A `ScheduleBlock`: the input dict of `Parser.parse_block` with its
three fields present and of string type (well-formed input). -/
structure Block where
  date : String
  schedule_text : String
  extras_text : String

/-- A `ParsedSchedule`: the result dict of `Parser.parse_block`. -/
structure ParsedS where
  date : String
  queues : List (String × List IvS)
  message : Option String
deriving DecidableEq

/-- Embeds `Parser.parse_block` (parser.py lines 27-60): base extraction,
change application when `extras_text` is truthy, merge, and the result
dict whose `message` is `extras_text if extras_text else None`;
`none` models an uncaught exception. -/
def parse_block (blk : Block) : Option ParsedS := do
  let qs ← extractBase blk.schedule_text
  let qs2 ← if blk.extras_text ≠ "" then applyChanges blk.extras_text qs
    else some qs
  let res ← mergeIntervalsS qs2
  some ⟨blk.date, res,
    if blk.extras_text ≠ "" then some blk.extras_text else none⟩

/-! ### Claim theorems: `message` and base extraction -/

/-- C3 counterexample.  `parse_block` does not trim: a block whose
`extras_text` is `" x "` (matching no announcement pattern) yields
`message = " x "` verbatim, which differs from the whitespace-trimmed
`extras_text` `"x"`. -/
theorem claim_C3_counterexample :
    parse_block ⟨"2026-01-20", "", " x "⟩
      = some ⟨"2026-01-20", [], some " x "⟩
    ∧ String.mk (trimWs (" x ").data) = "x"
    ∧ (" x " : String) ≠ "x" :=
  ⟨by decide, by decide, by decide⟩

/-- C3 amended.  The `message` field is the `extras_text` **verbatim**
(no trimming is applied by `parse_block`; the upstream scraper strips it
before building the block), and `None` exactly when `extras_text` is the
empty string — in particular independent of whether any announcement in
it was machine-parsed. -/
theorem claim_C3_message_amended :
    ∀ (blk : Block) (ps : ParsedS), parse_block blk = some ps →
      ps.message = if blk.extras_text = "" then none
        else some blk.extras_text := by
  intro blk ps h
  unfold parse_block at h
  simp only [Option.bind_eq_bind] at h
  rw [Option.bind_eq_some] at h
  obtain ⟨qs, _, h⟩ := h
  try dsimp only at h
  by_cases he : blk.extras_text = ""
  · rw [if_neg (by simp [he])] at h
    simp only [Option.some_bind] at h
    rw [Option.bind_eq_some] at h
    obtain ⟨res, _, h⟩ := h
    try dsimp only at h
    cases Option.some.inj h
    simp [he]
  · rw [if_pos he] at h
    rw [Option.bind_eq_some] at h
    obtain ⟨qs2, _, h⟩ := h
    try dsimp only at h
    rw [Option.bind_eq_some] at h
    obtain ⟨res, _, h⟩ := h
    try dsimp only at h
    cases Option.some.inj h
    simp [he]

theorem claim_C3_witness :
    (⟨"2026-01-20", [], some " x "⟩ : ParsedS).message
      = if (" x " : String) = "" then none else some " x " :=
  claim_C3_message_amended ⟨"2026-01-20", "", " x "⟩ _ (by decide)

/-- The contribution of one line to queue `q` in base extraction. -/
def lineContrib (q : String) (line : String) : Option (List RawItvS) :=
  match lineExtract line with
  | some (some p) => if p.1 = q then some p.2 else none
  | _ => none

lemma getLast?_cons_or {α : Type} (a : α) (l : List α) :
    (a :: l).getLast? = l.getLast?.or (some a) := by
  cases l with
  | nil => rfl
  | cons b t =>
    rw [List.getLast?_cons_cons]
    obtain ⟨x, hx⟩ := Option.isSome_iff_exists.mp
      (List.getLast?_isSome.mpr (List.cons_ne_nil b t))
    rw [hx]
    rfl

lemma lookupKey_setKey_self {α : Type} (l : List (String × α)) (k : String)
    (v : α) : lookupKey (setKey l k v) k = some v := by
  induction l with
  | nil => simp [setKey, lookupKey]
  | cons p t ih =>
    obtain ⟨k1, v1⟩ := p
    unfold setKey
    by_cases h : k1 = k
    · rw [if_pos h]
      unfold lookupKey
      rw [if_pos rfl]
    · rw [if_neg h]
      unfold lookupKey
      rw [if_neg h]
      exact ih

lemma lookupKey_setKey_ne {α : Type} (l : List (String × α)) (k k' : String)
    (v : α) (h : k ≠ k') :
    lookupKey (setKey l k v) k' = lookupKey l k' := by
  induction l with
  | nil => simp [setKey, lookupKey, h]
  | cons p t ih =>
    obtain ⟨k1, v1⟩ := p
    unfold setKey
    by_cases h1 : k1 = k
    · rw [if_pos h1]
      unfold lookupKey
      rw [if_neg h, if_neg (h1 ▸ h)]
    · rw [if_neg h1]
      unfold lookupKey
      by_cases h2 : k1 = k'
      · rw [if_pos h2, if_pos h2]
      · rw [if_neg h2, if_neg h2]
        exact ih

lemma extract_foldl_lookup :
    ∀ (ls : List String) (qs0 res : List (String × List RawItvS)) (q : String),
      List.foldlM extractStep qs0 ls = some res →
      lookupKey res q =
        ((ls.filterMap (lineContrib q)).getLast?).or (lookupKey qs0 q) := by
  intro ls
  induction ls with
  | nil =>
    intro qs0 res q h
    simp only [List.foldlM_nil] at h
    cases Option.some.inj h
    simp
  | cons line rest ih =>
    intro qs0 res q h
    rw [List.foldlM_cons] at h
    cases hstep : extractStep qs0 line with
    | none => rw [hstep] at h; exact absurd h (by simp)
    | some qs1 =>
      rw [hstep] at h
      simp only [Option.bind_eq_bind, Option.some_bind] at h
      unfold extractStep at hstep
      cases hline : lineExtract line with
      | none => rw [hline] at hstep; cases hstep
      | some o =>
        rw [hline] at hstep
        cases o with
        | none =>
          have hqs1 : qs0 = qs1 := Option.some.inj hstep
          subst hqs1
          have hc : lineContrib q line = none := by
            unfold lineContrib; rw [hline]
          rw [List.filterMap_cons, hc]
          exact ih qs0 res q h
        | some p =>
          have hqs1 : setKey qs0 p.1 p.2 = qs1 := Option.some.inj hstep
          subst hqs1
          have := ih (setKey qs0 p.1 p.2) res q h
          rw [this]
          have hc : lineContrib q line = if p.1 = q then some p.2 else none := by
            unfold lineContrib; rw [hline]
          rw [List.filterMap_cons, hc]
          by_cases hq : p.1 = q
          · rw [if_pos hq]
            show _ = ((p.2 :: _).getLast?).or _
            rw [getLast?_cons_or, Option.or_assoc]
            congr 1
            subst hq
            rw [lookupKey_setKey_self, Option.or_some]
          · rw [if_neg hq]
            show ((List.filterMap (lineContrib q) rest).getLast?).or _ = _
            congr 1
            exact lookupKey_setKey_ne qs0 p.1 q p.2 hq

/-- C7 counterexample.  On a line carrying two queue markers only the
**first** marker is recognized (the extraction uses `re.search`); that
queue's entry receives **all** intervals found on the line, and the
second marked queue gets no entry at all — contradicting the claim that
each marked queue creates/overwrites its own entry with the last block
of intervals found for it on the line. -/
theorem claim_C7_counterexample :
    extractBase "підчерга 1.1 з 10:00 до 11:00 підчерга 1.2 з 12:00 до 13:00"
      = some [("1.1", [⟨some "10:00", some "11:00", RKind.base⟩,
          ⟨some "12:00", some "13:00", RKind.base⟩])]
    ∧ lookupKey [("1.1",
          [(⟨some "10:00", some "11:00", RKind.base⟩ : RawItvS),
           ⟨some "12:00", some "13:00", RKind.base⟩])] "1.2" = none :=
  ⟨by decide, by decide⟩

/-- C7 amended.  Within one line, only the first queue marker is
recognized and its queue receives all the line's intervals (second
conjunct, concretely).  Across lines, extraction is last-write-wins
with no accumulation: a queue's final entry is the contribution of the
**last** line that produced one for it (first conjunct). -/
theorem claim_C7_lastwins_amended :
    (∀ (ls : List String) (res : List (String × List RawItvS)) (q : String),
      extractLines ls = some res →
      lookupKey res q = (ls.filterMap (lineContrib q)).getLast?)
    ∧ extractBase "підчерга 1.1 з 10:00 до 11:00 підчерга 1.2 з 12:00 до 13:00"
        = some [("1.1", [⟨some "10:00", some "11:00", RKind.base⟩,
            ⟨some "12:00", some "13:00", RKind.base⟩])] := by
  constructor
  · intro ls res q h
    have h2 := extract_foldl_lookup ls [] res q h
    simpa [lookupKey] using h2
  · decide

theorem claim_C7_witness :
    lookupKey [("1.1", [(⟨some "10:00", some "11:00", RKind.base⟩ : RawItvS)])]
        "1.1"
      = ((["підчерга 1.1 з 10:00 до 11:00"]).filterMap
          (lineContrib "1.1")).getLast? :=
  claim_C7_lastwins_amended.1 ["підчерга 1.1 з 10:00 до 11:00"] _ "1.1"
    (by decide)

/-! ### Totality of `parse_block` (claim C8)

The exception channel of the embedding is `none`; the claim is that the
pipeline never reaches it.  The well-formedness invariant carried
through is that every endpoint string stored in the queue mapping
converts with `_to_minutes` (it is a normalized time produced from a
regex time group). -/

/-- A time string accepted by `_to_minutes`. -/
def WfT (s : String) : Prop := (toMin s).isSome

/-- An optional endpoint: absent, or an accepted time string. -/
def WfO (o : Option String) : Prop := ∀ s, o = some s → WfT s

/-- Every endpoint of the interval dict is absent or accepted. -/
def WfRaw (i : RawItvS) : Prop := WfO i.start ∧ WfO i.stop

/-- Invariant of the queues mapping. -/
def WfQs (qs : List (String × List RawItvS)) : Prop :=
  ∀ p ∈ qs, ∀ i ∈ p.2, WfRaw i

/-- A normalizable time text whose normalization is accepted by
`_to_minutes`: the property of every regex time-group text. -/
def GoodT (s : String) : Prop :=
  ∃ t, normalizeTime s = some t ∧ WfT t

lemma splitOnChar_not_mem (c : Char) (l : List Char) (h : c ∉ l) :
    splitOnChar c l = [l] := by
  induction l with
  | nil => rfl
  | cons x xs ih =>
    have h1 : ¬ (x = c) := fun hh => h (List.mem_cons.mpr (Or.inl hh.symm))
    have h2 : c ∉ xs := fun hh => h (List.mem_cons.mpr (Or.inr hh))
    unfold splitOnChar
    rw [if_neg h1, ih h2]

lemma splitOnChar_append (c : Char) (a b : List Char) (h : c ∉ a) :
    splitOnChar c (a ++ c :: b) = a :: splitOnChar c b := by
  induction a with
  | nil => simp [splitOnChar]
  | cons x xs ih =>
    have h1 : ¬ (x = c) := fun hh => h (List.mem_cons.mpr (Or.inl hh.symm))
    have h2 : c ∉ xs := fun hh => h (List.mem_cons.mpr (Or.inr hh))
    show splitOnChar c (x :: (xs ++ c :: b)) = (x :: xs) :: splitOnChar c b
    conv_lhs => unfold splitOnChar
    rw [if_neg h1, ih h2]

lemma digits_no_colon {l : List Char} (h : l.all Char.isDigit) : ':' ∉ l := by
  intro hc
  have := List.all_eq_true.mp h ':' hc
  simp [Char.isDigit] at this

lemma zfill_all_digits {l : List Char} (n : Nat) (h : l.all Char.isDigit) :
    (zfill n l).all Char.isDigit := by
  unfold zfill
  rw [List.all_append, Bool.and_eq_true]
  refine ⟨?_, h⟩
  rw [List.all_eq_true]
  intro c hc
  rw [List.eq_of_mem_replicate hc]
  decide

lemma zfill_ne_nil {l : List Char} (n : Nat) (h : l ≠ []) :
    zfill n l ≠ [] := by
  unfold zfill
  intro hx
  rcases List.append_eq_nil.mp hx with ⟨_, h2⟩
  exact h h2

lemma digitsValOpt_isSome {l : List Char} (h1 : l ≠ [])
    (h2 : l.all Char.isDigit) : (digitsValOpt l).isSome := by
  simp [digitsValOpt, h1, h2]

lemma normalizeTime_shape {hd md : List Char} (h1 : hd.all Char.isDigit)
    (h2 : md.all Char.isDigit) :
    normalizeTime (String.mk (hd ++ ':' :: md))
      = some (String.mk (zfill 2 hd ++ ':' :: zfill 2 md)) := by
  unfold normalizeTime
  show (match splitOnChar ':' (hd ++ ':' :: md) with
    | p0 :: p1 :: _ => some (String.mk (zfill 2 p0 ++ ':' :: zfill 2 p1))
    | _ => none) = _
  rw [splitOnChar_append ':' hd md (digits_no_colon h1),
    splitOnChar_not_mem ':' md (digits_no_colon h2)]

lemma toMin_shape {hd md : List Char} (h1 : hd ≠ []) (h2 : hd.all Char.isDigit)
    (h3 : md ≠ []) (h4 : md.all Char.isDigit) :
    (toMin (String.mk (hd ++ ':' :: md))).isSome := by
  unfold toMin
  show (match splitOnChar ':' (hd ++ ':' :: md) with
    | [h, m] =>
      match digitsValOpt h, digitsValOpt m with
      | some hn, some mn => some (hn * 60 + mn)
      | _, _ => none
    | _ => none).isSome
  rw [splitOnChar_append ':' hd md (digits_no_colon h2),
    splitOnChar_not_mem ':' md (digits_no_colon h4)]
  obtain ⟨hn, hhn⟩ := Option.isSome_iff_exists.mp (digitsValOpt_isSome h1 h2)
  obtain ⟨mn, hmn⟩ := Option.isSome_iff_exists.mp (digitsValOpt_isSome h3 h4)
  have hred : (match [hd, md] with
    | [h, m] =>
      match digitsValOpt h, digitsValOpt m with
      | some hn, some mn => some (hn * 60 + mn)
      | _, _ => none
    | _ => (none : Option Nat))
      = (match digitsValOpt hd, digitsValOpt md with
        | some hn, some mn => some (hn * 60 + mn)
        | _, _ => none) := rfl
  rw [hred, hhn, hmn]
  rfl

lemma matchTimeG_shape {l : List Char} {g : List Char × List Char}
    {r : List Char} (h : matchTimeG l = some (g, r)) :
    g.1 ≠ [] ∧ g.1.all Char.isDigit ∧ g.2 ≠ [] ∧ g.2.all Char.isDigit := by
  unfold matchTimeG at h
  by_cases hlen : (l.takeWhile Char.isDigit).length = 1
      ∨ (l.takeWhile Char.isDigit).length = 2
  · rw [if_pos hlen] at h
    cases hdrop : l.dropWhile Char.isDigit with
    | nil => rw [hdrop] at h; cases h
    | cons c rest =>
      cases rest with
      | nil => rw [hdrop] at h; cases h
      | cons m1 rest2 =>
        cases rest2 with
        | nil => rw [hdrop] at h; cases h
        | cons m2 r3 =>
          rw [hdrop] at h
          have h5 : (if c = ':' ∧ m1.isDigit ∧ m2.isDigit then
              some ((l.takeWhile Char.isDigit, [m1, m2]), r3)
            else none) = some (g, r) := h
          by_cases hif : c = ':' ∧ m1.isDigit ∧ m2.isDigit
          · rw [if_pos hif] at h5
            cases Option.some.inj h5
            refine ⟨?_, List.all_takeWhile, by simp, ?_⟩
            · intro hnil
              have h7 : List.takeWhile Char.isDigit l = [] := hnil
              rw [h7] at hlen
              simp at hlen
            · simp [hif.2.1, hif.2.2]
          · rw [if_neg hif] at h5
            cases h5
  · rw [if_neg hlen] at h
    cases h

lemma matchTimeG_good {l : List Char} {g : List Char × List Char}
    {r : List Char} (h : matchTimeG l = some (g, r)) : GoodT (timeStr g) := by
  obtain ⟨h1, h2, h3, h4⟩ := matchTimeG_shape h
  refine ⟨String.mk (zfill 2 g.1 ++ ':' :: zfill 2 g.2), ?_, ?_⟩
  · exact normalizeTime_shape h2 h4
  · exact toMin_shape (zfill_ne_nil 2 h1) (zfill_all_digits 2 h2)
      (zfill_ne_nil 2 h3) (zfill_all_digits 2 h4)

lemma scanFirst_mem {α : Type} (m : List Char → Option α) :
    ∀ (fuel : Nat) (l : List Char) (a : α), scanFirst m fuel l = some a →
      ∃ l2, m l2 = some a := by
  intro fuel
  induction fuel with
  | zero => intro l a h; cases h
  | succ n ih =>
    intro l a
    have hdef : scanFirst m (n + 1) l = (match m l with
      | some a => some a
      | none => match l with
        | [] => none
        | _ :: t => scanFirst m n t) := rfl
    intro h
    rw [hdef] at h
    cases hm : m l with
    | some b =>
      rw [hm] at h
      cases Option.some.inj h
      exact ⟨l, hm⟩
    | none =>
      rw [hm] at h
      cases l with
      | nil => cases h
      | cons c t => exact ih t a h

lemma scanAll_mem {α : Type} (m : List Char → Option (α × List Char)) :
    ∀ (fuel : Nat) (l : List Char) (a : α), a ∈ scanAll m fuel l →
      ∃ l2 r, m l2 = some (a, r) := by
  intro fuel
  induction fuel with
  | zero => intro l a h; exact absurd h (List.not_mem_nil a)
  | succ n ih =>
    intro l a
    have hdef : scanAll m (n + 1) l = (match m l with
      | some (a, rest) => a :: scanAll m n rest
      | none => match l with
        | [] => []
        | _ :: t => scanAll m n t) := rfl
    intro h
    rw [hdef] at h
    cases hm : m l with
    | some p =>
      obtain ⟨b, rest⟩ := p
      rw [hm] at h
      rcases List.mem_cons.mp h with rfl | h2
      · exact ⟨l, rest, hm⟩
      · exact ih rest a h2
    | none =>
      rw [hm] at h
      cases l with
      | nil => exact absurd h (List.not_mem_nil a)
      | cons c t => exact ih t a h

lemma lazyDot_mem {α : Type} (tail : List Char → Option α) :
    ∀ (fuel : Nat) (l : List Char) (a : α), lazyDot tail fuel l = some a →
      ∃ l2, tail l2 = some a := by
  intro fuel
  induction fuel with
  | zero =>
    intro l a h
    cases l with
    | nil => cases h
    | cons c t => cases h
  | succ n ih =>
    intro l a h
    cases l with
    | nil => cases h
    | cons c t =>
      have hdef : lazyDot tail (n + 1) (c :: t) = (if c = '\n' then none
        else match tail t with
          | some a => some a
          | none => lazyDot tail n t) := rfl
      rw [hdef] at h
      by_cases hc : c = '\n'
      · rw [if_pos hc] at h; cases h
      · rw [if_neg hc] at h
        cases hm : tail t with
        | some b =>
          rw [hm] at h
          cases Option.some.inj h
          exact ⟨t, hm⟩
        | none =>
          rw [hm] at h
          exact ih t a h

lemma mapM_isSome {α β : Type} (f : α → Option β) :
    ∀ l : List α, (∀ x ∈ l, (f x).isSome) → (l.mapM f).isSome := by
  intro l
  induction l with
  | nil => intro _; rfl
  | cons a t ih =>
    intro h
    rw [List.mapM_cons]
    obtain ⟨b, hb⟩ := Option.isSome_iff_exists.mp (h a (List.mem_cons_self a t))
    obtain ⟨bs, hbs⟩ := Option.isSome_iff_exists.mp
      (ih fun x hx => h x (List.mem_cons_of_mem a hx))
    rw [hb]
    simp only [Option.bind_eq_bind, Option.some_bind]
    rw [hbs]
    rfl

lemma mapM_mem {α β : Type} (f : α → Option β) :
    ∀ (l : List α) (res : List β), l.mapM f = some res →
      ∀ b ∈ res, ∃ a ∈ l, f a = some b := by
  intro l
  induction l with
  | nil =>
    intro res h b hb
    cases Option.some.inj h
    exact absurd hb (List.not_mem_nil b)
  | cons a t ih =>
    intro res h b hb
    rw [List.mapM_cons] at h
    simp only [Option.bind_eq_bind, Option.bind_eq_some] at h
    obtain ⟨b0, hb0, h⟩ := h
    obtain ⟨bs, hbs, h⟩ := h
    cases Option.some.inj h
    rcases List.mem_cons.mp hb with rfl | h2
    · exact ⟨a, List.mem_cons_self a t, hb0⟩
    · obtain ⟨a2, ha2, hfa2⟩ := ih bs hbs b h2
      exact ⟨a2, List.mem_cons_of_mem a ha2, hfa2⟩

lemma foldlM_good {σ α : Type} (step : σ → α → Option σ) (P : σ → Prop)
    (Q : α → Prop)
    (hstep : ∀ s a, P s → Q a → ∃ s2, step s a = some s2 ∧ P s2) :
    ∀ (l : List α) (s : σ), P s → (∀ a ∈ l, Q a) →
      ∃ s2, List.foldlM step s l = some s2 ∧ P s2 := by
  intro l
  induction l with
  | nil => intro s hP _; exact ⟨s, rfl, hP⟩
  | cons a t ih =>
    intro s hP hQ
    obtain ⟨s1, hs1, hP1⟩ := hstep s a hP (hQ a (List.mem_cons_self a t))
    obtain ⟨s2, hs2, hP2⟩ := ih s1 hP1 fun x hx => hQ x (List.mem_cons_of_mem a hx)
    refine ⟨s2, ?_, hP2⟩
    rw [List.foldlM_cons, hs1]
    simp only [Option.bind_eq_bind, Option.some_bind]
    exact hs2

lemma matchTimePair_good {l : List Char} {p : (String × String) × List Char}
    (h : matchTimePair l = some p) : GoodT p.1.1 ∧ GoodT p.1.2 := by
  unfold matchTimePair at h
  simp only [Option.bind_eq_bind, Option.bind_eq_some] at h
  obtain ⟨r1, _, h⟩ := h
  obtain ⟨⟨g1, r3⟩, hg1, h⟩ := h
  obtain ⟨r5, _, h⟩ := h
  obtain ⟨⟨g2, r7⟩, hg2, h⟩ := h
  cases Option.some.inj h
  exact ⟨matchTimeG_good hg1, matchTimeG_good hg2⟩

lemma tailP1_good {l : List Char} {g : List Char × List Char}
    (h : tailP1 l = some g) : GoodT (timeStr g) := by
  unfold tailP1 at h
  simp only [Option.bind_eq_bind, Option.bind_eq_some] at h
  obtain ⟨r1, _, h⟩ := h
  obtain ⟨r2, _, h⟩ := h
  obtain ⟨r3, _, h⟩ := h
  obtain ⟨⟨g2, r5⟩, hg2, h⟩ := h
  cases Option.some.inj h
  exact matchTimeG_good hg2

lemma matchP1_good {l : List Char} {p : String × String}
    (h : matchP1 l = some p) : GoodT p.1 ∧ GoodT p.2 := by
  unfold matchP1 at h
  simp only [Option.bind_eq_bind, Option.bind_eq_some] at h
  obtain ⟨r1, _, h⟩ := h
  obtain ⟨r5, _, h⟩ := h
  obtain ⟨⟨g1, r8⟩, hg1, h⟩ := h
  obtain ⟨g2, hg2, h⟩ := h
  cases Option.some.inj h
  obtain ⟨l2, hl2⟩ := lazyDot_mem tailP1 _ _ _ hg2
  exact ⟨matchTimeG_good hg1, tailP1_good hl2⟩

lemma matchP2_good {l : List Char} {t : String}
    (h : matchP2 l = some t) : GoodT t := by
  unfold matchP2 at h
  simp only [Option.bind_eq_bind, Option.bind_eq_some] at h
  obtain ⟨r1, _, h⟩ := h
  obtain ⟨r2, _, h⟩ := h
  obtain ⟨r3, _, h⟩ := h
  obtain ⟨r7, _, h⟩ := h
  obtain ⟨⟨g, rr⟩, hg, h⟩ := h
  cases Option.some.inj h
  exact matchTimeG_good hg

lemma afterO_good {l : List Char} {g : List Char × List Char}
    {r : List Char} (h : afterO l = some (g, r)) : GoodT (timeStr g) := by
  cases l with
  | nil => exact matchTimeG_good h
  | cons c cs =>
    have h2 : (if pyLower c = 'б' then
        match matchTimeG (wsStar cs) with
        | some (g, rest) => some (g, rest)
        | none => matchTimeG (wsStar (c :: cs))
      else matchTimeG (wsStar (c :: cs))) = some (g, r) := h
    by_cases hb : pyLower c = 'б'
    · rw [if_pos hb] at h2
      cases hm : matchTimeG (wsStar cs) with
      | some p =>
        obtain ⟨g2, rest⟩ := p
        rw [hm] at h2
        cases Option.some.inj h2
        exact matchTimeG_good hm
      | none =>
        rw [hm] at h2
        exact matchTimeG_good h2
    · rw [if_neg hb] at h2
      exact matchTimeG_good h2

lemma tailP3_good {l : List Char} {g : List Char × List Char}
    {r : List Char} (h : tailP3 l = some (g, r)) : GoodT (timeStr g) := by
  unfold tailP3 at h
  simp only [Option.bind_eq_bind, Option.bind_eq_some] at h
  obtain ⟨r1, _, h⟩ := h
  exact afterO_good h

lemma altP3do_good {r6 : List Char} {t : String}
    (h : altP3do r6 = some t) : GoodT t := by
  unfold altP3do at h
  simp only [Option.bind_eq_bind, Option.bind_eq_some] at h
  obtain ⟨ra, _, h⟩ := h
  obtain ⟨⟨g, rr⟩, hg, h⟩ := h
  cases Option.some.inj h
  exact matchTimeG_good hg

lemma matchP3_good {l : List Char} {t : String}
    (h : matchP3 l = some t) : GoodT t := by
  unfold matchP3 at h
  simp only [Option.bind_eq_bind, Option.bind_eq_some] at h
  obtain ⟨r1, _, h⟩ := h
  obtain ⟨r2, _, h⟩ := h
  obtain ⟨r3, _, h⟩ := h
  cases halt : altP3do (wsStar (dashSkip (wsStar r3))) with
  | some g0 =>
    rw [halt] at h
    cases Option.some.inj h
    exact altP3do_good halt
  | none =>
    rw [halt] at h
    simp only [Option.bind_eq_bind, Option.bind_eq_some] at h
    obtain ⟨rb, _, h⟩ := h
    obtain ⟨⟨g, rr⟩, hg, h⟩ := h
    cases Option.some.inj h
    obtain ⟨l2, hl2⟩ := lazyDot_mem tailP3 _ _ _ hg
    exact tailP3_good hl2

lemma tailP4_good {l : List Char} {p : String × String}
    (h : tailP4 l = some p) : GoodT p.1 ∧ GoodT p.2 := by
  unfold tailP4 at h
  simp only [Option.bind_eq_bind, Option.bind_eq_some] at h
  obtain ⟨r1, _, h⟩ := h
  obtain ⟨⟨g1, r2⟩, hg1, h⟩ := h
  obtain ⟨r3, _, h⟩ := h
  obtain ⟨⟨g2, rr⟩, hg2, h⟩ := h
  cases Option.some.inj h
  exact ⟨matchTimeG_good hg1, matchTimeG_good hg2⟩

lemma matchP4_good {l : List Char} {p : String × String}
    (h : matchP4 l = some p) : GoodT p.1 ∧ GoodT p.2 := by
  unfold matchP4 at h
  simp only [Option.bind_eq_bind, Option.bind_eq_some] at h
  obtain ⟨r1, _, h⟩ := h
  obtain ⟨l2, hl2⟩ := lazyDot_mem tailP4 _ _ _ h
  exact tailP4_good hl2

/-! ### Totality and invariant of extraction and change application -/

lemma wfo_some {t : String} (h : WfT t) : WfO (some t) := by
  intro s hs
  cases Option.some.inj hs
  exact h

lemma wfo_none : WfO none := by
  intro s hs
  cases hs

lemma mkBaseIv_isSome {p : String × String} (h1 : GoodT p.1)
    (h2 : GoodT p.2) : (mkBaseIv p).isSome := by
  obtain ⟨t1, ht1, _⟩ := h1
  obtain ⟨t2, ht2, _⟩ := h2
  unfold mkBaseIv
  simp only [Option.bind_eq_bind, ht1, Option.some_bind, ht2]
  rfl

lemma mkBaseIv_wf {p : String × String} {iv : RawItvS} (h1 : GoodT p.1)
    (h2 : GoodT p.2) (h : mkBaseIv p = some iv) : WfRaw iv := by
  obtain ⟨t1, ht1, hw1⟩ := h1
  obtain ⟨t2, ht2, hw2⟩ := h2
  unfold mkBaseIv at h
  simp only [Option.bind_eq_bind, ht1, Option.some_bind, ht2] at h
  cases Option.some.inj h
  exact ⟨wfo_some hw1, wfo_some hw2⟩

lemma findAllTimePairs_good {l : List Char} :
    ∀ p ∈ findAllTimePairs l, GoodT p.1 ∧ GoodT p.2 := by
  intro p hp
  obtain ⟨l2, r, hm⟩ := scanAll_mem _ _ _ _ hp
  exact matchTimePair_good hm

lemma lineExtract_total (line : String) :
    ∃ o, lineExtract line = some o
      ∧ ∀ p, o = some p → ∀ iv ∈ p.2, WfRaw iv := by
  unfold lineExtract
  cases hq : searchQueueMarker line.data with
  | none => exact ⟨none, rfl, fun p hp => by cases hp⟩
  | some q =>
    have hsome : ((findAllTimePairs line.data).mapM mkBaseIv).isSome :=
      mapM_isSome _ _ fun x hx =>
        mkBaseIv_isSome (findAllTimePairs_good x hx).1
          (findAllTimePairs_good x hx).2
    obtain ⟨ivs, hivs⟩ := Option.isSome_iff_exists.mp hsome
    rw [hivs]
    by_cases hemp : ivs.isEmpty
    · refine ⟨none, ?_, fun p hp => by cases hp⟩
      show (if ivs.isEmpty then some none else some (some (q, ivs)))
        = some none
      rw [if_pos hemp]
    · refine ⟨some (q, ivs), ?_, ?_⟩
      · show (if ivs.isEmpty then some none else some (some (q, ivs)))
          = some (some (q, ivs))
        rw [if_neg hemp]
      · intro p hp
        cases Option.some.inj hp
        intro iv hiv
        obtain ⟨pr, hpr, hmk⟩ := mapM_mem _ _ _ hivs iv hiv
        exact mkBaseIv_wf (findAllTimePairs_good pr hpr).1
          (findAllTimePairs_good pr hpr).2 hmk

lemma setKey_mem {α : Type} : ∀ {l : List (String × α)} {k : String} {v : α}
    {p : String × α}, p ∈ setKey l k v → p = (k, v) ∨ p ∈ l := by
  intro l
  induction l with
  | nil =>
    intro k v p hp
    exact Or.inl (List.mem_singleton.mp hp)
  | cons q0 t ih =>
    intro k v p hp
    obtain ⟨k1, v1⟩ := q0
    unfold setKey at hp
    by_cases h : k1 = k
    · rw [if_pos h] at hp
      rcases List.mem_cons.mp hp with rfl | h2
      · exact Or.inl rfl
      · exact Or.inr (List.mem_cons_of_mem _ h2)
    · rw [if_neg h] at hp
      rcases List.mem_cons.mp hp with rfl | h2
      · exact Or.inr (List.mem_cons_self _ _)
      · rcases ih h2 with h3 | h3
        · exact Or.inl h3
        · exact Or.inr (List.mem_cons_of_mem _ h3)

lemma setKey_wfqs {qs : List (String × List RawItvS)} {k : String}
    {v : List RawItvS} (hq : WfQs qs) (hv : ∀ i ∈ v, WfRaw i) :
    WfQs (setKey qs k v) := by
  intro p hp
  rcases setKey_mem hp with rfl | h2
  · exact hv
  · exact hq p h2

lemma extractLines_total (ls : List String) :
    ∃ res, extractLines ls = some res ∧ WfQs res := by
  refine foldlM_good extractStep WfQs (fun _ => True) ?_ ls [] ?_
    (fun _ _ => trivial)
  · intro s line hP _
    obtain ⟨o, ho, hwf⟩ := lineExtract_total line
    unfold extractStep
    rw [ho]
    cases o with
    | none => exact ⟨s, rfl, hP⟩
    | some p => exact ⟨setKey s p.1 p.2, rfl, setKey_wfqs hP (hwf p rfl)⟩
  · intro p hp
    exact absurd hp (List.not_mem_nil p)

lemma extractBase_total (text : String) :
    ∃ qs, extractBase text = some qs ∧ WfQs qs :=
  extractLines_total _

lemma pushItem_wfqs {q : String} {item : RawItvS} :
    ∀ {qs : List (String × List RawItvS)}, WfQs qs → WfRaw item →
      WfQs (pushItem qs q item) := by
  intro qs
  induction qs with
  | nil =>
    intro _ hi p hp
    rcases List.mem_singleton.mp hp with rfl
    intro i hi2
    rcases List.mem_singleton.mp hi2 with rfl
    exact hi
  | cons q0 t ih =>
    intro hq hi p hp
    obtain ⟨k, v⟩ := q0
    unfold pushItem at hp
    by_cases h : k = q
    · rw [if_pos h] at hp
      rcases List.mem_cons.mp hp with rfl | hpt
      · intro i hi2
        rcases List.mem_append.mp hi2 with h1 | h2
        · exact hq (k, v) (List.mem_cons_self _ _) i h1
        · rcases List.mem_singleton.mp h2 with rfl
          exact hi
      · exact hq p (List.mem_cons_of_mem _ hpt)
    · rw [if_neg h] at hp
      rcases List.mem_cons.mp hp with rfl | hpt
      · exact hq (k, v) (List.mem_cons_self _ _)
      · exact ih (fun p2 hp2 => hq p2 (List.mem_cons_of_mem _ hp2)) hi p hpt

lemma foldl_push_wf {β : Type}
    (f : (List (String × List RawItvS) × List String) → β →
      (List (String × List RawItvS) × List String))
    (hf : ∀ acc b, WfQs acc.1 → WfQs (f acc b).1) :
    ∀ (l : List β) acc, WfQs acc.1 → WfQs (l.foldl f acc).1 := by
  intro l
  induction l with
  | nil => intro acc h; exact h
  | cons b t ih => intro acc h; exact ih (f acc b) (hf acc b h)

lemma applyEntryCore_total (st : List (String × List RawItvS) × List String)
    (entry : List Char) (queueNums : List String) (hst : WfQs st.1) :
    ∃ st2, applyEntryCore st entry queueNums = some st2 ∧ WfQs st2.1 := by
  unfold applyEntryCore
  cases h1 : scanFirst matchP1 (entry.length + 1) entry with
  | some p =>
    obtain ⟨t1, t2⟩ := p
    obtain ⟨l1, hm1⟩ := scanFirst_mem _ _ _ _ h1
    obtain ⟨hg1, hg2⟩ := matchP1_good hm1
    obtain ⟨n1, hn1, hw1⟩ := hg1
    obtain ⟨n2, hn2, hw2⟩ := hg2
    simp only [hn1, hn2, Option.bind_eq_bind, Option.some_bind]
    refine ⟨_, rfl, ?_⟩
    refine foldl_push_wf _ ?_ queueNums st hst
    intro acc b hacc
    by_cases hb : (b ++ "_full") ∈ acc.2
    · rw [if_pos hb]; exact hacc
    · rw [if_neg hb]
      exact pushItem_wfqs hacc ⟨wfo_some hw1, wfo_some hw2⟩
  | none =>
  cases h2 : scanFirst matchP2 (entry.length + 1) entry with
  | some t =>
    obtain ⟨l2, hm2⟩ := scanFirst_mem _ _ _ _ h2
    obtain ⟨n1, hn1, hw1⟩ := matchP2_good hm2
    simp only [hn1, Option.bind_eq_bind, Option.some_bind]
    refine ⟨_, rfl, ?_⟩
    refine foldl_push_wf _ ?_ queueNums st hst
    intro acc b hacc
    by_cases hb : (b ++ "_start") ∈ acc.2 ∨ (b ++ "_full") ∈ acc.2
    · rw [if_pos hb]; exact hacc
    · rw [if_neg hb]
      exact pushItem_wfqs hacc ⟨wfo_some hw1, wfo_none⟩
  | none =>
  cases h3 : scanFirst matchP3 (entry.length + 1) entry with
  | some t =>
    obtain ⟨l3, hm3⟩ := scanFirst_mem _ _ _ _ h3
    obtain ⟨n1, hn1, hw1⟩ := matchP3_good hm3
    simp only [hn1, Option.bind_eq_bind, Option.some_bind]
    refine ⟨_, rfl, ?_⟩
    refine foldl_push_wf _ ?_ queueNums st hst
    intro acc b hacc
    by_cases hb : (b ++ "_end") ∈ acc.2
    · rw [if_pos hb]; exact hacc
    · rw [if_neg hb]
      exact pushItem_wfqs hacc ⟨wfo_none, wfo_some hw1⟩
  | none =>
  cases h4 : scanFirst matchP4 (entry.length + 1) entry with
  | some p =>
    obtain ⟨t1, t2⟩ := p
    obtain ⟨l4, hm4⟩ := scanFirst_mem _ _ _ _ h4
    obtain ⟨hg1, hg2⟩ := matchP4_good hm4
    obtain ⟨n1, hn1, hw1⟩ := hg1
    obtain ⟨n2, hn2, hw2⟩ := hg2
    simp only [hn1, hn2, Option.bind_eq_bind, Option.some_bind]
    refine ⟨_, rfl, ?_⟩
    refine foldl_push_wf _ ?_ queueNums st hst
    intro acc b hacc
    exact pushItem_wfqs hacc ⟨wfo_some hw1, wfo_some hw2⟩
  | none => exact ⟨st, rfl, hst⟩

lemma applyEntry_total (st : List (String × List RawItvS) × List String)
    (e : List Char) (hst : WfQs st.1) :
    ∃ st2, applyEntry st e = some st2 ∧ WfQs st2.1 := by
  unfold applyEntry
  by_cases hemp : (trimWs e).isEmpty
  · refine ⟨st, ?_, hst⟩
    rw [if_pos hemp]
  · rw [if_neg hemp]
    by_cases hq : (entryQueueNums (trimWs e)).isEmpty
    · refine ⟨st, ?_, hst⟩
      rw [if_pos hq]
    · rw [if_neg hq]
      exact applyEntryCore_total st (trimWs e) (entryQueueNums (trimWs e)) hst

lemma applyChanges_total (extras : String)
    (qs : List (String × List RawItvS)) (h : WfQs qs) :
    ∃ qs2, applyChanges extras qs = some qs2 ∧ WfQs qs2 := by
  obtain ⟨st2, hst2, hwf⟩ := foldlM_good applyEntry (fun st => WfQs st.1)
    (fun _ => True) (fun s a hP _ => applyEntry_total s a hP)
    (splitEntries (dashNorm extras.data)) (qs, []) h (fun _ _ => trivial)
  refine ⟨st2.1, ?_, hwf⟩
  unfold applyChanges
  rw [hst2]
  rfl

/-! ### Totality of the string-level merge -/

/-- Both endpoints of a populated interval are accepted by
`_to_minutes`. -/
def WfIvS (iv : IvS) : Prop := WfT iv.start ∧ WfT iv.stop

/-- Invariant of a working interval list. -/
def WfL (l : List IvS) : Prop := ∀ iv ∈ l, WfIvS iv

lemma baseFilter_wf {raw : List RawItvS} (h : ∀ i ∈ raw, WfRaw i) :
    WfL (baseFilter raw) := by
  intro iv hiv
  unfold baseFilter at hiv
  rw [List.mem_filterMap] at hiv
  obtain ⟨i, hi, hf⟩ := hiv
  obtain ⟨hs, he⟩ := h i hi
  obtain ⟨istart, ie, ik⟩ := i
  cases ik <;> cases istart <;> cases ie <;> try cases hf
  rename_i s e
  have hf2 : (if s ≠ "" ∧ e ≠ "" then some (⟨s, e⟩ : IvS) else none)
      = some iv := hf
  by_cases hne : s ≠ "" ∧ e ≠ ""
  · rw [if_pos hne] at hf2
    cases Option.some.inj hf2
    exact ⟨hs s rfl, he e rfl⟩
  · rw [if_neg hne] at hf2
    cases hf2

lemma fullFilter_wf {raw : List RawItvS} (h : ∀ i ∈ raw, WfRaw i) :
    WfL (fullFilter raw) := by
  intro iv hiv
  unfold fullFilter at hiv
  rw [List.mem_filterMap] at hiv
  obtain ⟨i, hi, hf⟩ := hiv
  obtain ⟨hs, he⟩ := h i hi
  obtain ⟨istart, ie, ik⟩ := i
  cases ik <;> cases istart <;> cases ie <;> try cases hf
  rename_i s e
  have hf2 : (if s ≠ "" ∧ e ≠ "" then some (⟨s, e⟩ : IvS) else none)
      = some iv := hf
  by_cases hne : s ≠ "" ∧ e ≠ ""
  · rw [if_pos hne] at hf2
    cases Option.some.inj hf2
    exact ⟨hs s rfl, he e rfl⟩
  · rw [if_neg hne] at hf2
    cases hf2

lemma extraFilter_wf {raw : List RawItvS} (h : ∀ i ∈ raw, WfRaw i) :
    WfL (extraFilter raw) := by
  intro iv hiv
  unfold extraFilter at hiv
  rw [List.mem_filterMap] at hiv
  obtain ⟨i, hi, hf⟩ := hiv
  obtain ⟨hs, he⟩ := h i hi
  obtain ⟨istart, ie, ik⟩ := i
  cases ik <;> cases istart <;> cases ie <;> try cases hf
  rename_i s e
  have hf2 : (if s ≠ "" ∧ e ≠ "" then some (⟨s, e⟩ : IvS) else none)
      = some iv := hf
  by_cases hne : s ≠ "" ∧ e ≠ ""
  · rw [if_pos hne] at hf2
    cases Option.some.inj hf2
    exact ⟨hs s rfl, he e rfl⟩
  · rw [if_neg hne] at hf2
    cases hf2

lemma insertionSort_wfL {r : IvS → IvS → Prop} [DecidableRel r]
    {l : List IvS} (h : WfL l) : WfL (List.insertionSort r l) :=
  fun iv hiv => h iv ((List.mem_insertionSort r).mp hiv)

lemma findNearestAuxS_isSome (tm0 : Nat) (f : IvS → String) :
    ∀ (xs : List IvS) (i bi bd : Nat),
      (∀ iv ∈ xs, (toMin (f iv)).isSome) →
      (findNearestAuxS tm0 f xs i bi bd).isSome := by
  intro xs
  induction xs with
  | nil => intro _ _ _ _; rfl
  | cons x t ih =>
    intro i bi bd h
    obtain ⟨dx, hdx⟩ := Option.isSome_iff_exists.mp
      (h x (List.mem_cons_self x t))
    unfold findNearestAuxS
    simp only [hdx, Option.bind_eq_bind, Option.some_bind]
    have ht : ∀ iv ∈ t, (toMin (f iv)).isSome :=
      fun iv hiv => h iv (List.mem_cons_of_mem x hiv)
    by_cases hlt : Int.natAbs ((dx : Int) - (tm0 : Int)) < bd
    · rw [if_pos hlt]; exact ih _ _ _ ht
    · rw [if_neg hlt]; exact ih _ _ _ ht

lemma findNearestS_isSome (l : List IvS) (t : String) (f : IvS → String)
    (ht : WfT t) (h : ∀ iv ∈ l, (toMin (f iv)).isSome) :
    (findNearestS l t f).isSome := by
  cases l with
  | nil => rfl
  | cons x xs =>
    obtain ⟨tm0, htm0⟩ := Option.isSome_iff_exists.mp ht
    obtain ⟨d0, hd0⟩ := Option.isSome_iff_exists.mp
      (h x (List.mem_cons_self x xs))
    unfold findNearestS
    simp only [htm0, hd0, Option.bind_eq_bind, Option.some_bind]
    obtain ⟨idx, hidx⟩ := Option.isSome_iff_exists.mp
      (findNearestAuxS_isSome tm0 f xs 1 0 _
        fun iv hiv => h iv (List.mem_cons_of_mem x hiv))
    rw [hidx]
    rfl

lemma updateAt_mem {α : Type} :
    ∀ (l : List α) (i : Nat) (f : α → α) (y : α), y ∈ updateAt l i f →
      y ∈ l ∨ ∃ x ∈ l, y = f x := by
  intro l
  induction l with
  | nil => intro i f y hy; cases hy
  | cons x xs ih =>
    intro i f y hy
    cases i with
    | zero =>
      rcases List.mem_cons.mp hy with rfl | h2
      · exact Or.inr ⟨x, List.mem_cons_self x xs, rfl⟩
      · exact Or.inl (List.mem_cons_of_mem x h2)
    | succ j =>
      rcases List.mem_cons.mp hy with rfl | h2
      · exact Or.inl (List.mem_cons_self _ _)
      · rcases ih j f y h2 with h3 | ⟨z, hz, hzf⟩
        · exact Or.inl (List.mem_cons_of_mem x h3)
        · exact Or.inr ⟨z, List.mem_cons_of_mem x hz, hzf⟩

lemma applyStartS_total (b : List IvS) (s : String) (hb : WfL b)
    (hw : WfT s) : ∃ b2, applyStartS b s = some b2 ∧ WfL b2 := by
  unfold applyStartS
  by_cases hne : s ≠ ""
  · rw [if_pos hne]
    obtain ⟨o, ho⟩ := Option.isSome_iff_exists.mp
      (findNearestS_isSome b s (fun iv => iv.start) hw
        fun iv hiv => (hb iv hiv).1)
    simp only [ho, Option.bind_eq_bind, Option.some_bind]
    cases o with
    | some i =>
      refine ⟨_, rfl, ?_⟩
      intro y hy
      rcases updateAt_mem b i _ y hy with h2 | ⟨x, hx, hyx⟩
      · exact hb y h2
      · rw [hyx]
        exact ⟨hw, (hb x hx).2⟩
    | none => exact ⟨b, rfl, hb⟩
  · rw [if_neg hne]
    exact ⟨b, rfl, hb⟩

lemma applyEndS_total (b : List IvS) (e : String) (hb : WfL b)
    (hw : WfT e) : ∃ b2, applyEndS b e = some b2 ∧ WfL b2 := by
  unfold applyEndS
  by_cases hne : e ≠ ""
  · rw [if_pos hne]
    obtain ⟨o, ho⟩ := Option.isSome_iff_exists.mp
      (findNearestS_isSome b e (fun iv => iv.stop) hw
        fun iv hiv => (hb iv hiv).2)
    simp only [ho, Option.bind_eq_bind, Option.some_bind]
    cases o with
    | some i =>
      refine ⟨_, rfl, ?_⟩
      intro y hy
      rcases updateAt_mem b i _ y hy with h2 | ⟨x, hx, hyx⟩
      · exact hb y h2
      · rw [hyx]
        exact ⟨(hb x hx).1, hw⟩
    | none => exact ⟨b, rfl, hb⟩
  · rw [if_neg hne]
    exact ⟨b, rfl, hb⟩

lemma applyChangeS_total (b : List IvS) (c : RawItvS) (hb : WfL b)
    (hc : WfRaw c) : ∃ b2, applyChangeS b c = some b2 ∧ WfL b2 := by
  unfold applyChangeS
  by_cases he : b.isEmpty
  · refine ⟨b, ?_, hb⟩
    rw [if_pos he]
  · rw [if_neg he]
    obtain ⟨cs, ce, ck⟩ := c
    obtain ⟨hcs, hce⟩ := hc
    cases ck with
    | changeStart =>
      cases cs with
      | none => cases ce <;> exact ⟨b, rfl, hb⟩
      | some s => cases ce <;> exact applyStartS_total b s hb (hcs s rfl)
    | changeEnd =>
      cases ce with
      | none => cases cs <;> exact ⟨b, rfl, hb⟩
      | some e => cases cs <;> exact applyEndS_total b e hb (hce e rfl)
    | base => cases cs <;> cases ce <;> exact ⟨b, rfl, hb⟩
    | change => cases cs <;> cases ce <;> exact ⟨b, rfl, hb⟩
    | extra => cases cs <;> cases ce <;> exact ⟨b, rfl, hb⟩

lemma wfT_pyMinS {x y : String} (h1 : WfT x) (h2 : WfT y) :
    WfT (pyMinS x y) := by
  unfold pyMinS
  by_cases h : y < x
  · rw [if_pos h]; exact h2
  · rw [if_neg h]; exact h1

lemma wfT_pyMaxS {x y : String} (h1 : WfT x) (h2 : WfT y) :
    WfT (pyMaxS x y) := by
  unfold pyMaxS
  by_cases h : x < y
  · rw [if_pos h]; exact h2
  · rw [if_neg h]; exact h1

lemma overlapsS_isSome {i1 i2 : IvS} (h1 : WfIvS i1) (h2 : WfIvS i2) :
    (overlapsS i1 i2).isSome := by
  obtain ⟨s1, hs1⟩ := Option.isSome_iff_exists.mp h1.1
  obtain ⟨e1, he1⟩ := Option.isSome_iff_exists.mp h1.2
  obtain ⟨s2, hs2⟩ := Option.isSome_iff_exists.mp h2.1
  obtain ⟨e2, he2⟩ := Option.isSome_iff_exists.mp h2.2
  unfold overlapsS
  simp only [hs1, he1, hs2, he2, Option.bind_eq_bind, Option.some_bind]
  rfl

lemma applyFullS_total :
    ∀ (b : List IvS) (fc : IvS), WfL b → WfIvS fc →
      ∃ b2, applyFullS b fc = some b2 ∧ WfL b2 := by
  intro b
  induction b with
  | nil =>
    intro fc _ hfc
    refine ⟨[⟨fc.start, fc.stop⟩], rfl, ?_⟩
    intro y hy
    rcases List.mem_singleton.mp hy with rfl
    exact hfc
  | cons x rest ih =>
    intro fc hb hfc
    obtain ⟨ob, hob⟩ := Option.isSome_iff_exists.mp
      (overlapsS_isSome (hb x (List.mem_cons_self x rest)) hfc)
    unfold applyFullS
    simp only [hob, Option.bind_eq_bind, Option.some_bind]
    cases ob with
    | true =>
      rw [if_pos rfl]
      refine ⟨_, rfl, ?_⟩
      intro y hy
      rcases List.mem_cons.mp hy with rfl | h2
      · exact ⟨wfT_pyMinS (hb x (List.mem_cons_self x rest)).1 hfc.1,
          wfT_pyMaxS (hb x (List.mem_cons_self x rest)).2 hfc.2⟩
      · exact hb y (List.mem_cons_of_mem x h2)
    | false =>
      rw [if_neg (by simp)]
      obtain ⟨b2, hb2, hwf2⟩ := ih fc
        (fun y hy => hb y (List.mem_cons_of_mem x hy)) hfc
      rw [hb2]
      refine ⟨x :: b2, rfl, ?_⟩
      intro y hy
      rcases List.mem_cons.mp hy with rfl | h2
      · exact hb y (List.mem_cons_self y rest)
      · exact hwf2 y h2

lemma mergeRunS_total :
    ∀ (rest : List IvS) (last : IvS), WfIvS last → WfL rest →
      (mergeRunS last rest).isSome := by
  intro rest
  induction rest with
  | nil => intro last _ _; rfl
  | cons c r ih =>
    intro last hlast hrest
    have hc := hrest c (List.mem_cons_self c r)
    have hr : WfL r := fun iv hiv => hrest iv (List.mem_cons_of_mem c hiv)
    obtain ⟨cs, hcs⟩ := Option.isSome_iff_exists.mp hc.1
    obtain ⟨le, hle⟩ := Option.isSome_iff_exists.mp hlast.2
    unfold mergeRunS
    simp only [hcs, hle, Option.bind_eq_bind, Option.some_bind]
    by_cases hcl : cs ≤ le
    · rw [if_pos hcl]
      obtain ⟨ce, hce⟩ := Option.isSome_iff_exists.mp hc.2
      simp only [hce, Option.bind_eq_bind, Option.some_bind]
      by_cases h2 : le < ce
      · rw [if_pos h2]
        exact ih ⟨last.start, c.stop⟩ ⟨hlast.1, hc.2⟩ hr
      · rw [if_neg h2]
        exact ih last hlast hr
    · rw [if_neg hcl]
      obtain ⟨o, ho⟩ := Option.isSome_iff_exists.mp (ih c hc hr)
      rw [ho]
      rfl

lemma mergeOverlappingS_isSome {l : List IvS} (h : WfL l) :
    (mergeOverlappingS l).isSome := by
  cases l with
  | nil => rfl
  | cons x xs =>
    have hkeys : (List.mapM (fun iv : IvS =>
        (toMin iv.start).bind fun k => some (k, iv)) (x :: xs)).isSome := by
      refine mapM_isSome _ _ fun iv hiv => ?_
      obtain ⟨k, hk⟩ := Option.isSome_iff_exists.mp (h iv hiv).1
      rw [hk]
      rfl
    obtain ⟨keyed, hkeyed⟩ := Option.isSome_iff_exists.mp hkeys
    have hwfs : ∀ iv ∈ (List.insertionSort (fun a b : Nat × IvS => a.1 ≤ b.1)
        keyed).map (fun p => p.2), WfIvS iv := by
      intro iv hiv
      obtain ⟨p, hp, hpe⟩ := List.mem_map.mp hiv
      have hpk : p ∈ keyed := (List.mem_insertionSort _).mp hp
      obtain ⟨a, ha, hfa⟩ := mapM_mem _ _ _ hkeyed p hpk
      obtain ⟨k, hk⟩ := Option.isSome_iff_exists.mp (h a ha).1
      rw [hk, Option.some_bind] at hfa
      cases Option.some.inj hfa
      rw [← hpe]
      exact h a ha
    show ((List.mapM (fun iv : IvS =>
        (toMin iv.start).bind fun k => some (k, iv)) (x :: xs)).bind
      fun keyed =>
        match (List.insertionSort (fun a b : Nat × IvS => a.1 ≤ b.1)
            keyed).map (fun p => p.2) with
        | [] => some []
        | y :: ys => mergeRunS y ys).isSome
    rw [hkeyed, Option.some_bind]
    cases hsorted : (List.insertionSort (fun a b : Nat × IvS => a.1 ≤ b.1)
        keyed).map (fun p => p.2) with
    | nil => rfl
    | cons y ys =>
      rw [hsorted] at hwfs
      exact mergeRunS_total ys y (hwfs y (List.mem_cons_self y ys))
        fun iv hiv => hwfs iv (List.mem_cons_of_mem y hiv)

lemma mergeQueueS_isSome {intervals : List RawItvS}
    (h : ∀ i ∈ intervals, WfRaw i) : (mergeQueueS intervals).isSome := by
  unfold mergeQueueS
  have hb1 : WfL (List.insertionSort (fun a b : IvS => a.start ≤ b.start)
      (baseFilter intervals)) := insertionSort_wfL (baseFilter_wf h)
  obtain ⟨b2, hb2, hwf2⟩ := foldlM_good applyChangeS WfL WfRaw
    (fun s a hP hQ => applyChangeS_total s a hP hQ)
    (intervals.filter (fun i =>
      i.kind = RKind.changeStart ∨ i.kind = RKind.changeEnd)) _ hb1
    (fun a ha => h a (List.mem_filter.mp ha).1)
  simp only [hb2, Option.bind_eq_bind, Option.some_bind]
  obtain ⟨b3, hb3, hwf3⟩ := foldlM_good applyFullS WfL WfIvS
    (fun s a hP hQ => applyFullS_total s a hP hQ)
    (fullFilter intervals) b2 hwf2 (fun a ha => fullFilter_wf h a ha)
  simp only [hb3, Option.some_bind]
  apply mergeOverlappingS_isSome
  intro iv hiv
  rcases List.mem_append.mp hiv with h1 | h2
  · exact hwf3 iv h1
  · obtain ⟨e, he, hee⟩ := List.mem_map.mp h2
    rw [← hee]
    exact extraFilter_wf h e he

lemma mergeIntervalsS_isSome {qs : List (String × List RawItvS)}
    (h : WfQs qs) : (mergeIntervalsS qs).isSome := by
  have hstep : ∀ (s : List (String × List IvS)) (a : String × List RawItvS),
      True → (∀ i ∈ a.2, WfRaw i) →
      ∃ s2, mergeStepS s a = some s2 ∧ True := by
    intro s a _ hQ
    obtain ⟨m, hm⟩ := Option.isSome_iff_exists.mp (mergeQueueS_isSome hQ)
    unfold mergeStepS
    simp only [hm, Option.bind_eq_bind, Option.some_bind]
    by_cases hemp : m.isEmpty
    · rw [if_pos hemp]
      exact ⟨s, rfl, trivial⟩
    · rw [if_neg hemp]
      exact ⟨s ++ [(a.1, m)], rfl, trivial⟩
  obtain ⟨res, hres, _⟩ := foldlM_good mergeStepS (fun _ => True)
    (fun p => ∀ i ∈ p.2, WfRaw i) hstep qs [] trivial (fun p hp => h p hp)
  unfold mergeIntervalsS
  rw [hres]
  rfl

/-- C8.  `Parser.parse_block` is total over well-formed input: for every
block with a date and string `schedule_text`/`extras_text` fields, the
embedded pipeline (whose `none` models an uncaught Python exception)
returns a result — malformed announcements are skipped by explicit code
paths, never by raising. -/
theorem claim_C8_total : ∀ blk : Block, (parse_block blk).isSome := by
  intro blk
  obtain ⟨qs, h1, hw1⟩ := extractBase_total blk.schedule_text
  unfold parse_block
  simp only [Option.bind_eq_bind, h1, Option.some_bind]
  by_cases he : blk.extras_text = ""
  · rw [if_neg (by simp [he])]
    obtain ⟨res, hres⟩ := Option.isSome_iff_exists.mp
      (mergeIntervalsS_isSome hw1)
    simp only [Option.some_bind, hres]
    rfl
  · rw [if_pos he]
    obtain ⟨qs2, h2, hw2⟩ := applyChanges_total blk.extras_text qs hw1
    obtain ⟨res, hres⟩ := Option.isSome_iff_exists.mp
      (mergeIntervalsS_isSome hw2)
    simp only [h2, Option.some_bind, hres]
    rfl

end KhmLight
